import Mathlib

/-!
Verification development for the NCBI-style taxonomy engine
(`NcbiTaxonomy.cpp`, ported from blast2lca).

The C++ code is shallowly embedded: machine integers become `Int`/`Nat`,
`std::vector` becomes `List`, fallible operations (process exit, null-pointer
dereference, out-of-bounds vector access, unbounded recursion) become
`Option`-valued functions (`none` models a fault), and `double` weights become
exact rationals `ℚ`.  The recursive Euler traversal and the parent walks are
given explicit fuel; a run that would not terminate in the C++ (or would
overflow the stack) runs out of fuel and yields `none`.
-/

namespace NcbiTax

/-- One taxon record, as read from a row of the nodes dump
(`taxonNodes` entry in the C++; the internal index is the list position). -/
structure TaxonNode where
  taxId : Int
  parentTaxId : Int
  rank : String
  name : String
deriving Repr, DecidableEq

/-- The taxon store: the record array `taxonNodes` and the dense
external-id → internal-index table `D` (sized `maxTaxID + 1`, `-1` = absent). -/
structure Store where
  taxonNodes : List TaxonNode
  D : List Int
deriving Repr, DecidableEq

/-- `NcbiTaxonomy::nodeExists`: `return D[taxonId] != -1;`.
The C++ performs an unchecked vector read, so an id outside `[0, D.size)`
is an out-of-bounds access, modelled as `none`. -/
def nodeExistsOpt (st : Store) (t : Int) : Option Bool :=
  if t < 0 then none
  else (st.D.get? t.toNat).map (fun d => d ≠ -1)

/-- `NcbiTaxonomy::nodeId`: exits the process for a negative or absent id
(modelled `none`), otherwise returns `D[taxonId]`. -/
def nodeIdOpt (st : Store) (t : Int) : Option Nat :=
  match nodeExistsOpt st t with
  | none => none
  | some false => none
  | some true =>
    match st.D.get? t.toNat with
    | none => none
    | some d => if d < 0 then none else some d.toNat

/-- `NcbiTaxonomy::taxonNode(taxonId, fail)`: returns NULL (`some none`) for
id 0 or, in lenient mode, for an absent id; otherwise the record.
The outer `none` models a fault (out-of-bounds read or process exit). -/
def taxonNodeOpt (st : Store) (t : Int) (fail : Bool) : Option (Option TaxonNode) :=
  if t = 0 then some none
  else if fail then (nodeIdOpt st t).bind (fun i => (st.taxonNodes.get? i).map some)
  else
    match nodeExistsOpt st t with
    | none => none
    | some false => some none
    | some true => (nodeIdOpt st t).bind (fun i => (st.taxonNodes.get? i).map some)

/-- Dereference of a `taxonNode` pointer that the caller does not test for
NULL: NULL (`some none`) collapses to a fault. -/
def taxonNodeStrict (st : Store) (t : Int) (fail : Bool) : Option TaxonNode :=
  match taxonNodeOpt st t fail with
  | some (some n) => some n
  | _ => none

/-- `maxTaxID` as computed by `loadNodes` (running maximum, starting at 0). -/
def maxTaxID (records : List TaxonNode) : Int :=
  records.foldl (fun m r => max m r.taxId) 0

/-- The dense table `D` built by `loadNodes`: a `std::map` keeps the first
internal id per taxon id, and the map is then written into a `-1`-filled
vector of size `maxTaxID + 1`.  A negative taxon id would make the vector
write out of bounds, modelled as `none`. -/
def buildD (records : List TaxonNode) : Option (List Int) :=
  if records.all (fun r => 0 ≤ r.taxId) then
    some (records.enum.foldl
      (fun D p =>
        if D.getD p.2.taxId.toNat (-1) = -1 then D.set p.2.taxId.toNat (p.1 : Int) else D)
      (List.replicate ((maxTaxID records).toNat + 1) (-1)))
  else none

/-- `NcbiTaxonomy::loadNodes` after parsing: build `D`, then check that every
record's parent resolves (process exit otherwise). -/
def loadNodes (records : List TaxonNode) : Option Store :=
  (buildD records).bind (fun D =>
    let st : Store := ⟨records, D⟩
    if records.all (fun r => nodeExistsOpt st r.parentTaxId == some true) then some st
    else none)

/-- One row of `NcbiTaxonomy::loadMerged`:
`if (!nodeExists(oldId) && nodeExists(mergedId)) D[oldId] = D[mergedId];`
(`&&` short-circuits, so `mergedId` is only looked up when `oldId` is absent). -/
def mergedStep (st : Store) (p : Int × Int) : Option Store :=
  (nodeExistsOpt st p.1).bind (fun eOld =>
    if eOld then some st
    else (nodeExistsOpt st p.2).bind (fun eNew =>
      if eNew then
        (st.D.get? p.2.toNat).map (fun dNew => { st with D := st.D.set p.1.toNat dNew })
      else some st))

/-- `NcbiTaxonomy::loadMerged` over already-split rows. -/
def loadMerged (st : Store) (pairs : List (Int × Int)) : Option Store :=
  pairs.foldlM mergedStep st

/-- First index at which `pat` occurs as a contiguous sublist
(`std::string::find`). -/
def findSubIdx : List Char → List Char → Option Nat
  | _, [] => some 0
  | [], _ :: _ => none
  | c :: rest, p :: ps =>
    if (p :: ps).isPrefixOf (c :: rest) then some 0
    else (findSubIdx rest (p :: ps)).map (· + 1)

/-- `line.find(pat) != std::string::npos`. -/
def strContains (s pat : String) : Bool :=
  (findSubIdx s.data pat.data).isSome

/-- Loop body of `splitByDelimiter` (fuel models the strictly advancing
`prev` cursor; the fuel `s.length + 1` never runs out for a nonempty
delimiter). -/
def splitByDelimAux (s d : List Char) (maxCol : Nat) :
    Nat → Nat → Nat → List String → List String
  | 0, _, _, acc => acc.reverse
  | f + 1, prev, i, acc =>
    let rest := s.drop prev
    let pos := match findSubIdx rest d with
               | some k => prev + k
               | none => s.length
    let tok := ((s.drop prev).take (pos - prev)).asString
    let acc' := tok :: acc
    let prev' := pos + d.length
    let i' := i + 1
    if pos < s.length ∧ prev' < s.length ∧ i' < maxCol then
      splitByDelimAux s d maxCol f prev' i' acc'
    else acc'.reverse

/-- `splitByDelimiter(s, delimiter, maxCol)` from the source. -/
def splitByDelimiter (s delim : String) (maxCol : Nat) : List String :=
  splitByDelimAux s.data delim.data maxCol (s.data.length + 1) 0 0 []

/-- Decimal digits accumulator for `strtol`. -/
def digitsVal : List Char → Nat → Nat
  | [], acc => acc
  | c :: cs, acc => if c.isDigit then digitsVal cs (acc * 10 + (c.toNat - '0'.toNat)) else acc

/-- `strtol(s, NULL, 10)`: optional whitespace, optional sign, leading digits
(0 when there are none). -/
def strtol (s : List Char) : Int :=
  let t := s.dropWhile (fun c => c = ' ' ∨ c = '\t' ∨ c = '\n' ∨ c = '\r')
  match t with
  | '-' :: rest => -(digitsVal rest 0 : Int)
  | '+' :: rest => (digitsVal rest 0 : Int)
  | _ => (digitsVal t 0 : Int)

/-- `parseName`: split into (at most) two columns; fewer than two is a fatal
format error. -/
def parseNameM (line : String) : Option (Int × String) :=
  let result := splitByDelimiter line "\t|\t" 2
  if result.length ≠ 2 then none
  else
    (result.get? 0).bind (fun f0 =>
      (result.get? 1).map (fun f1 => (strtol f0.data, f1)))

/-- One line of `NcbiTaxonomy::loadNames`: lines whose text does not contain
`"scientific name"` are skipped; otherwise the id must exist (process exit
when not) and the record's name is assigned. -/
def loadNamesStep (st : Store) (line : String) : Option Store :=
  if strContains line "scientific name" then
    (parseNameM line).bind (fun e =>
      match nodeExistsOpt st e.1 with
      | some true =>
        (nodeIdOpt st e.1).bind (fun i =>
          (st.taxonNodes.get? i).map (fun r =>
            { st with taxonNodes := st.taxonNodes.set i { r with name := e.2 } }))
      | _ => none)
  else some st

/-- `NcbiTaxonomy::loadNames` over the raw lines of the names dump. -/
def loadNames (st : Store) (lines : List String) : Option Store :=
  lines.foldlM loadNamesStep st

/-- The `children` adjacency built in the constructor: every record whose
parent is not itself is appended to `children[nodeId(parentTaxId)]`. -/
def buildChildren (st : Store) : Option (List (List Int)) :=
  st.taxonNodes.foldlM
    (fun ch r =>
      if r.parentTaxId ≠ r.taxId then
        (nodeIdOpt st r.parentTaxId).map (fun pid => ch.set pid (ch.getD pid [] ++ [r.taxId]))
      else some ch)
    (List.replicate st.taxonNodes.length [])

/-- State threaded through the Euler traversal `elh`: the tour is the pair
list `(E, L)` zipped (always pushed in lockstep in the C++), `H` is the
first-occurrence table.  `vis` is a verification ghost recording, in order,
each taxon id entered together with the tour position of its entry; it does
not influence `tour` or `H`. -/
structure EState where
  tour : List (Nat × Int)
  H : List Nat
  vis : List (Int × Nat)
deriving Repr, DecidableEq

/-- `NcbiTaxonomy::elh`, the recursive Euler traversal, with fuel bounding
the recursion depth (the C++ recursion either stays within depth
`maxNodes + 1` or never terminates).  The `for` loop over the node's
children is the (fault-propagating) fold. -/
def elh (st : Store) (ch : List (List Int)) : Nat → Int → Int → EState → Option EState
  | 0, _, _, _ => none
  | f + 1, taxId, level, s =>
    match nodeIdOpt st taxId with
    | none => none
    | some id =>
      let s1 : EState :=
        { tour := s.tour ++ [(id, level)]
          H := if s.H.getD id 0 = 0 then s.H.set id s.tour.length else s.H
          vis := s.vis ++ [(taxId, s.tour.length)] }
      match (ch.getD id []).foldlM (fun s' c => elh st ch f c (level + 1) s') s1 with
      | none => none
      | some s2 =>
        match st.taxonNodes.get? id with
        | none => none
        | some r =>
          match nodeIdOpt st r.parentTaxId with
          | none => none
          | some pid => some { s2 with tour := s2.tour ++ [(pid, level - 1)] }

/-- `std::vector::resize(n, d)`: truncate or pad with `d` to length `n`. -/
def resizeTo {α : Type} (l : List α) (n : Nat) (d : α) : List α :=
  l.take n ++ List.replicate (n - l.length) d

/-- A fully constructed engine: the store plus the Euler arrays. -/
structure Taxonomy where
  store : Store
  E : List Nat
  L : List Int
  H : List Nat
deriving Repr, DecidableEq

/-- The `NcbiTaxonomy` constructor: load nodes, merged, names; build the
children lists; run the Euler traversal from taxon id 1 at level 0; resize
`E` and `L` to `2 * maxNodes` padding with 0. -/
def NcbiTaxonomy (nodes : List TaxonNode) (merged : List (Int × Int))
    (nameLines : List String) : Option Taxonomy :=
  (loadNodes nodes).bind (fun st0 =>
    (loadMerged st0 merged).bind (fun st1 =>
      (loadNames st1 nameLines).bind (fun st =>
        let N := st.taxonNodes.length
        (buildChildren st).bind (fun ch =>
          (elh st ch (N + 1) 1 0 ⟨[], List.replicate N 0, []⟩).map (fun s =>
            { store := st
              E := resizeTo (s.tour.map Prod.fst) (2 * N) 0
              L := resizeTo (s.tour.map Prod.snd) (2 * N) 0
              H := s.H })))))

/-- `INT_MAX`, the value of `ROOT_RANK`. -/
def intMax : Int := 2147483647

/-- The sparse table `M[i][j]` of `InitRangeMinimumQuery`, as a function of
the depth array `L`.  Entries the C++ loops never fill stay 0 (the matrix is
zero-initialised); an entry is filled exactly when its window fits, i.e.
`i + 2^j ≤ L.length`, and then holds the argmin of the two half windows with
ties going to the second half (`<` comparison). -/
def sparseM (L : List Int) : Nat → Nat → Nat
  | i, 0 => i
  | i, j + 1 =>
    if i + 2 ^ (j + 1) ≤ L.length then
      if L.getD (sparseM L i j) 0 < L.getD (sparseM L (i + 2 ^ j) j) 0 then sparseM L i j
      else sparseM L (i + 2 ^ j) j
    else 0

/-- Fuel-driven floor base-2 logarithm (`⌊log2⌋`). -/
def flog2Aux : Nat → Nat → Nat
  | 0, _ => 0
  | f + 1, n => if n ≤ 1 then 0 else flog2Aux f (n / 2) + 1

/-- Modelled from the spec: `MathUtil::flog2` (`MathUtil.h` is not under
`src/`); the spec specifies `k = ⌊log2(r − l + 1)⌋`. -/
def flog2 (n : Nat) : Nat := flog2Aux n n

/-- `NcbiTaxonomy::RangeMinimumQuery(i, j)` (requires `i ≤ j`): compare the
two `2^k` windows covering `[i, j]`, ties going to the left one (`<=`). -/
def rangeMinimumQuery (L : List Int) (i j : Nat) : Nat :=
  if L.getD (sparseM L i (flog2 (j - i + 1))) 0 ≤
      L.getD (sparseM L (j + 1 - 2 ^ flog2 (j - i + 1)) (flog2 (j - i + 1))) 0 then
    sparseM L i (flog2 (j - i + 1))
  else sparseM L (j + 1 - 2 ^ flog2 (j - i + 1)) (flog2 (j - i + 1))

/-- `NcbiTaxonomy::lcaHelper` on internal indices. -/
def lcaHelper (T : Taxonomy) (i j : Nat) : Nat :=
  if i = 0 ∨ j = 0 then 0
  else if i = j then i
  else
    let v1 := T.H.getD i 0
    let v2 := T.H.getD j 0
    let lo := if v1 > v2 then v2 else v1
    let hi := if v1 > v2 then v1 else v2
    T.E.getD (rangeMinimumQuery T.L lo hi) 0

/-- `NcbiTaxonomy::LCA(taxonA, taxonB)`: if one id is absent return the
other, else map the helper's internal result back to a taxon id. -/
def LCA (T : Taxonomy) (a b : Int) : Option Int :=
  (nodeExistsOpt T.store a).bind (fun ea =>
    if ¬ ea then some b
    else (nodeExistsOpt T.store b).bind (fun eb =>
      if ¬ eb then some a
      else (nodeIdOpt T.store a).bind (fun ia =>
        (nodeIdOpt T.store b).bind (fun ib =>
          (T.store.taxonNodes.get? (lcaHelper T ia ib)).map (fun r => r.taxId)))))

/-- The do-while walk of `taxLineage`: push the node, move to its parent,
stop once the (new) node is its own parent.  Fuel models C++ termination. -/
def taxLineageVec (st : Store) : Nat → TaxonNode → Option (List TaxonNode)
  | 0, _ => none
  | f + 1, node =>
    (taxonNodeStrict st node.parentTaxId true).bind (fun n' =>
      if n'.parentTaxId ≠ n'.taxId then (taxLineageVec st f n').map (fun v => node :: v)
      else some [node])

/-- Rank configuration: the canonical rank → index map (`NcbiRanks`) and the
rank → short-code map (`NcbiShortRanks`) live in the missing header; the
engine takes them as configuration (spec §6).  Lookup failure is `-1`. -/
def findRankIndex (ranks : List (String × Int)) (r : String) : Int :=
  match ranks.find? (fun p => p.1 = r) with
  | some p => p.2
  | none => -1

/-- `NcbiTaxonomy::findShortRank` over the short-code configuration map. -/
def findShortRank (shortRanks : List (String × Char)) (r : String) : Char :=
  match shortRanks.find? (fun p => p.1 = r) with
  | some p => p.2
  | none => '-'

/-- Modelled from the spec: the canonical rank vocabulary (the `NcbiRanks`
map is in the header, which is not under `src/`; spec §4.6 gives the ordered
example list, indexed here from 1). -/
def NcbiRanksModel : List (String × Int) :=
  [("superkingdom", 1), ("kingdom", 2), ("phylum", 3), ("class", 4), ("order", 5),
   ("family", 6), ("genus", 7), ("species", 8), ("subspecies", 9)]

/-- `NcbiTaxonomy::taxLineage`: walk to the self-parent node (exclusive),
then emit the collected nodes in reverse (root-to-node) order joined by
`";"`; tokens are `shortRank_name` or the decimal taxon id. -/
def taxLineage (st : Store) (shortRanks : List (String × Char)) (fuel : Nat)
    (node : TaxonNode) (infoAsName : Bool) : Option String :=
  (taxLineageVec st fuel node).map (fun vec =>
    String.intercalate ";"
      (vec.reverse.map (fun n =>
        if infoAsName then String.mk [findShortRank shortRanks n.rank, '_'] ++ n.name
        else toString n.taxId)))

/-- Per-taxon totals of `getCladeCounts` (`TaxonCounts`). -/
structure TaxonCounts where
  taxCount : Nat
  cladeCount : Nat
  children : List Int
deriving Repr, DecidableEq

/-- The default-constructed `TaxonCounts` that `operator[]` creates. -/
def TaxonCounts.zero : TaxonCounts := ⟨0, 0, []⟩

/-- `cladeCounts[k]` update: modify the entry in place when present,
otherwise append a default-constructed one (insertion order of an
`unordered_map` is modelled as arrival order; the claims proved below do not
depend on it). -/
def cladeUpdate (m : List (Int × TaxonCounts)) (k : Int)
    (f : TaxonCounts → TaxonCounts) : List (Int × TaxonCounts) :=
  match m with
  | [] => [(k, f TaxonCounts.zero)]
  | (k', v) :: rest => if k = k' then (k', f v) :: rest else (k', v) :: cladeUpdate rest k f

/-- The ancestor walk of `getCladeCounts`: while the parent is distinct and
exists, move up and add the count to the parent's clade count. -/
def cladeWalk (st : Store) (c : Nat) :
    Nat → TaxonNode → List (Int × TaxonCounts) → Option (List (Int × TaxonCounts))
  | 0, _, _ => none
  | f + 1, taxon, m =>
    if taxon.parentTaxId = taxon.taxId then some m
    else
      (nodeExistsOpt st taxon.parentTaxId).bind (fun pex =>
        if pex then
          (taxonNodeStrict st taxon.parentTaxId true).bind (fun p =>
            cladeWalk st c f p (cladeUpdate m p.taxId (fun tc => { tc with cladeCount := tc.cladeCount + c })))
        else some m)

/-- One input entry of `getCladeCounts`: set `taxCount`, add to own
`cladeCount`, then walk the ancestors of a known id. -/
def cladeStep (st : Store) (fuel : Nat) (m : List (Int × TaxonCounts)) (p : Int × Nat) :
    Option (List (Int × TaxonCounts)) :=
  let m1 := cladeUpdate m p.1 (fun tc => { tc with taxCount := p.2 })
  let m2 := cladeUpdate m1 p.1 (fun tc => { tc with cladeCount := tc.cladeCount + p.2 })
  (nodeExistsOpt st p.1).bind (fun ex =>
    if ex then (taxonNodeStrict st p.1 true).bind (fun n => cladeWalk st p.2 fuel n m2)
    else some m2)

/-- First loop of `getCladeCounts`. -/
def cladeCountsMain (st : Store) (fuel : Nat) (taxonCounts : List (Int × Nat)) :
    Option (List (Int × TaxonCounts)) :=
  taxonCounts.foldlM (cladeStep st fuel) []

/-- Second loop of `getCladeCounts`: for every record with a distinct parent
that appears in the map, push it onto its parent's children list (the
iterator into the parent entry is dereferenced unchecked: absence is a
fault). -/
def cladeChildren (st : Store) (m : List (Int × TaxonCounts)) :
    Option (List (Int × TaxonCounts)) :=
  st.taxonNodes.foldlM
    (fun m tn =>
      if tn.parentTaxId ≠ tn.taxId ∧ (m.lookup tn.taxId).isSome then
        if (m.lookup tn.parentTaxId).isSome then
          some (cladeUpdate m tn.parentTaxId (fun tc => { tc with children := tc.children ++ [tn.taxId] }))
        else none
      else some m)
    m

/-- `NcbiTaxonomy::getCladeCounts`. -/
def getCladeCounts (st : Store) (fuel : Nat) (taxonCounts : List (Int × Nat)) :
    Option (List (Int × TaxonCounts)) :=
  (cladeCountsMain st fuel taxonCounts).bind (cladeChildren st)

/-- Distance (number of parent hops) from a taxon id to the root id 1;
`none` when the chain does not reach 1 within the fuel.  Used only in
specifications, not by the embedded code. -/
def rootDist (st : Store) : Nat → Int → Option Nat
  | 0, _ => none
  | f + 1, t =>
    if t = 1 then some 0
    else ((nodeIdOpt st t).bind (fun i => st.taxonNodes.get? i)).bind (fun r =>
      (rootDist st f r.parentTaxId).map (· + 1))

/-- Parent taxon id of a taxon id, through the store (specification helper). -/
def parentOfTax (st : Store) (t : Int) : Option Int :=
  ((nodeIdOpt st t).bind (fun i => st.taxonNodes.get? i)).map (fun r => r.parentTaxId)

/-- Iterated parent (specification helper). -/
def ancT (st : Store) : Nat → Int → Option Int
  | 0, t => some t
  | k + 1, t => (parentOfTax st t).bind (ancT st k)

/-- The per-ancestor accumulator `TaxNode` of `weightedMajorityLCA`
(`double` weights are modelled as exact rationals). -/
structure TaxAcc where
  weight : ℚ
  isCandidate : Bool
  childTaxon : Int
deriving Repr, DecidableEq

/-- `TaxNode::update`: a second distinct child path makes the node a
candidate and records the new child; the weight is always added. -/
def TaxAcc.update (tn : TaxAcc) (w : ℚ) (child : Int) : TaxAcc :=
  if tn.childTaxon ≠ child then
    { weight := tn.weight + w, isCandidate := true, childTaxon := child }
  else
    { weight := tn.weight + w, isCandidate := tn.isCandidate, childTaxon := tn.childTaxon }

/-- `std::map<TaxID, TaxNode>` modelled as an association list sorted by key:
update in place when the key is present, otherwise insert in order. -/
def mapUpsert (m : List (Int × TaxAcc)) (k : Int) (upd : TaxAcc → TaxAcc)
    (dflt : TaxAcc) : List (Int × TaxAcc) :=
  match m with
  | [] => [(k, dflt)]
  | (k', v) :: rest =>
    if k < k' then (k, dflt) :: (k', v) :: rest
    else if k = k' then (k', upd v) :: rest
    else (k', v) :: mapUpsert rest k upd dflt

/-- The inner ancestor walk of the aggregation loop: while the parent is
distinct, add the weight to the parent's accumulator (recording the child
taxon), then move up via `taxonNode(·, false)` whose NULL result would be
dereferenced on the next iteration (a fault). -/
def wmlWalk (st : Store) (w : ℚ) :
    Nat → Int → TaxonNode → List (Int × TaxAcc) → Option (List (Int × TaxAcc))
  | 0, _, _, _ => none
  | f + 1, curr, node, m =>
    if node.parentTaxId = curr then some m
    else
      let m' := mapUpsert m node.parentTaxId (fun tn => tn.update w curr) ⟨w, false, curr⟩
      (taxonNodeStrict st node.parentTaxId false).bind (fun n' =>
        wmlWalk st w f node.parentTaxId n' m')

/-- Running totals of the aggregation loop of `weightedMajorityLCA`. -/
structure WmlAgg where
  counts : List (Int × TaxAcc)
  assignedSeqs : Nat
  unassignedSeqs : Nat
  totalWeight : ℚ
deriving Repr, DecidableEq

/-- The aggregation loop of `weightedMajorityLCA`: taxon 0 counts as
unassigned; an unknown taxon is fatal; a known taxon adds its weight to the
totals, becomes a candidate itself, and its weight is pushed up the whole
ancestor path. -/
def wmlAggregate (st : Store) (fuel : Nat) (hits : List (Int × ℚ)) : Option WmlAgg :=
  hits.foldlM
    (fun a p =>
      if p.1 = 0 then some { a with unassignedSeqs := a.unassignedSeqs + 1 }
      else
        (taxonNodeStrict st p.1 false).bind (fun node =>
          let m1 := mapUpsert a.counts p.1 (fun tn => tn.update p.2 0) ⟨p.2, true, 0⟩
          (wmlWalk st p.2 fuel p.1 node m1).map (fun m2 =>
            { counts := m2
              assignedSeqs := a.assignedSeqs + 1
              unassignedSeqs := a.unassignedSeqs
              totalWeight := a.totalWeight + p.2 })))
    ⟨[], 0, 0, 0⟩

/-- The rank walk inside the selection loop: starting at the candidate's own
node, return the first rank with a positive index on the way to the root and
stop there (the loop breaks); `ROOT_RANK` (`INT_MAX`) when no such rank is
found before the self-parent node. -/
def wmlMinRankWalk (st : Store) (ranks : List (String × Int)) :
    Nat → Int → TaxonNode → Option Int
  | 0, _, _ => none
  | f + 1, curr, node =>
    if node.parentTaxId = curr then some intMax
    else
      let ri := findRankIndex ranks node.rank
      if 0 < ri ∧ ri < intMax then some ri
      else
        (taxonNodeStrict st node.parentTaxId false).bind (fun n' =>
          wmlMinRankWalk st ranks f node.parentTaxId n')

/-- `wmlMinRankWalk` started the way the selection loop starts it. -/
def wmlCandRank (st : Store) (ranks : List (String × Int)) (fuel : Nat) (t : Int) :
    Option Int :=
  (taxonNodeStrict st t false).bind (fun node => wmlMinRankWalk st ranks fuel t node)

/-- The selection loop of `weightedMajorityLCA` over the (key-sorted)
accumulator map: skip non-candidates, skip candidates below the cutoff, and
keep the candidate with the smallest rank-walk value, ties broken by a
strictly larger weight percentage. -/
def wmlSelect (st : Store) (ranks : List (String × Int)) (fuel : Nat)
    (total : ℚ) (cutoff : ℚ) :
    List (Int × TaxAcc) → (Int × Int × ℚ) → Option (Int × Int × ℚ)
  | [], acc => some acc
  | (t, tn) :: rest, acc =>
    if tn.isCandidate = false then wmlSelect st ranks fuel total cutoff rest acc
    else
      if cutoff ≤ tn.weight / total then
        (wmlCandRank st ranks fuel t).bind (fun cmr =>
          if cmr < acc.2.1 ∨ (cmr = acc.2.1 ∧ acc.2.2 < tn.weight / total) then
            wmlSelect st ranks fuel total cutoff rest (t, cmr, tn.weight / total)
          else wmlSelect st ranks fuel total cutoff rest acc)
      else wmlSelect st ranks fuel total cutoff rest acc

/-- The final agreement loop: a hit agrees when the selected taxon occurs on
the walk from the hit towards the root (the hit itself included; the walk
stops when the current node is its own parent, so a selected root is only
found here via the dedicated early return). -/
def wmlAgreeWalk (st : Store) (sel : Int) : Nat → Int → TaxonNode → Option Bool
  | 0, _, _ => none
  | f + 1, curr, node =>
    if node.parentTaxId = curr then some false
    else if curr = sel then some true
    else
      (taxonNodeStrict st node.parentTaxId false).bind (fun n' =>
        wmlAgreeWalk st sel f node.parentTaxId n')

/-- Count of hits agreeing with the selection (third loop). -/
def wmlAgreeCount (st : Store) (fuel : Nat) (hits : List (Int × ℚ)) (sel : Int) :
    Option Nat :=
  hits.foldlM
    (fun n p =>
      if p.1 = 0 then some n
      else
        (taxonNodeStrict st p.1 true).bind (fun node =>
          (wmlAgreeWalk st sel fuel p.1 node).map (fun b => if b then n + 1 else n)))
    0

/-- Result record of `weightedMajorityLCA`. -/
structure WeightedTaxResult where
  taxon : Int
  assignedSeqs : Nat
  unassignedSeqs : Nat
  seqsAgreeWithSelectedTaxon : Nat
  selectedPercent : ℚ
deriving Repr, DecidableEq

/-- `NcbiTaxonomy::weightedMajorityLCA` (weights already derived; the
`WeightedTaxHit` constructor's float/log weight derivation is out of scope
for the claims below). -/
def weightedMajorityLCA (st : Store) (ranks : List (String × Int)) (fuel : Nat)
    (hits : List (Int × ℚ)) (cutoff : ℚ) : Option WeightedTaxResult :=
  (wmlAggregate st fuel hits).bind (fun agg =>
    (wmlSelect st ranks fuel agg.totalWeight cutoff agg.counts (0, intMax, 0)).bind
      (fun sel =>
        if sel.1 = 1 then
          some ⟨sel.1, agg.assignedSeqs, agg.unassignedSeqs, agg.assignedSeqs, sel.2.2⟩
        else if sel.1 = 0 then
          some ⟨sel.1, agg.assignedSeqs, agg.unassignedSeqs, 0, sel.2.2⟩
        else
          (wmlAgreeCount st fuel hits sel.1).map (fun agr =>
            ⟨sel.1, agg.assignedSeqs, agg.unassignedSeqs, agr, sel.2.2⟩)))

/-- The claim's notion of the lineage minimum rank: the smallest positive
rank index over the candidate's whole walk to the root (no early break).
This follows the spec's words and is compared against the code's
`wmlCandRank` walk. -/
def lineageMinRankWalk (st : Store) (ranks : List (String × Int)) :
    Nat → Int → TaxonNode → Int → Option Int
  | 0, _, _, _ => none
  | f + 1, curr, node, best =>
    if node.parentTaxId = curr then some best
    else
      let ri := findRankIndex ranks node.rank
      let best' := if 0 < ri ∧ ri < best then ri else best
      (taxonNodeStrict st node.parentTaxId false).bind (fun n' =>
        lineageMinRankWalk st ranks f node.parentTaxId n' best')

/-- `lineageMinRankWalk` from a taxon id, starting at `ROOT_RANK`. -/
def lineageMinRank (st : Store) (ranks : List (String × Int)) (fuel : Nat) (t : Int) :
    Option Int :=
  (taxonNodeStrict st t false).bind (fun node =>
    lineageMinRankWalk st ranks fuel t node intMax)

/-- What the selection loop actually guarantees (specification predicate):
the zero result characterises the absence of qualifying candidates, and a
nonzero result is a qualifying candidate minimising the break-walk rank
`wmlCandRank`, ties broken by a weight percentage no smaller than any tied
qualifier's. -/
def wmlSelectionOptimal (st : Store) (ranks : List (String × Int)) (fuel : Nat)
    (agg : WmlAgg) (cutoff : ℚ) (res : WeightedTaxResult) : Prop :=
  ((∀ x ∈ agg.counts, x.2.isCandidate = true →
      x.2.weight / agg.totalWeight < cutoff) ↔ res.taxon = 0) ∧
  (res.taxon ≠ 0 →
    ∃ x ∈ agg.counts, x.1 = res.taxon ∧ x.2.isCandidate = true ∧
      cutoff ≤ x.2.weight / agg.totalWeight ∧
      res.selectedPercent = x.2.weight / agg.totalWeight ∧
      ∃ rsel, wmlCandRank st ranks fuel res.taxon = some rsel ∧
        ∀ y ∈ agg.counts, y.2.isCandidate = true →
          cutoff ≤ y.2.weight / agg.totalWeight →
          ∃ ry, wmlCandRank st ranks fuel y.1 = some ry ∧
            (rsel < ry ∨ (rsel = ry ∧ y.2.weight / agg.totalWeight ≤ res.selectedPercent)))

/- Specification helpers (used only in theorem statements). -/

/-- The token list whose `";"`-join is `taxLineage … false`. -/
def taxLineageTokens (st : Store) (fuel : Nat) (node : TaxonNode) :
    Option (List String) :=
  (taxLineageVec st fuel node).map (fun vec =>
    vec.reverse.map (fun n => toString n.taxId))

/-- Splitting at a single separator character (the claim's "split by `;`"),
written structurally so it evaluates. -/
def splitCharAux (sep : Char) : List Char → List Char → List String
  | [], acc => [acc.reverse.asString]
  | c :: cs, acc =>
    if c = sep then acc.reverse.asString :: splitCharAux sep cs []
    else splitCharAux sep cs (c :: acc)

/-- Split a string at every occurrence of `sep`. -/
def splitChar (s : String) (sep : Char) : List String :=
  splitCharAux sep s.data []

/-- Names-dump lines that are retained and whose parsed id resolves to
internal index `i` (specification side of the `loadNames` behaviour). -/
def namesRelevantTo (st : Store) (i : Nat) (lines : List String) : List String :=
  lines.filter (fun l =>
    strContains l "scientific name" &&
      ((parseNameM l).bind (fun e => nodeIdOpt st e.1) == some i))

/-- The name the last relevant names-dump line assigns to internal index
`i`, or `dflt` when no line is relevant. -/
def lastNameFor (st : Store) (i : Nat) (lines : List String) (dflt : String) : String :=
  match (namesRelevantTo st i lines).getLast? with
  | some l =>
    match parseNameM l with
    | some e => e.2
    | none => dflt
  | none => dflt

/-- The taxon ids whose clade counters the `getCladeCounts` ancestor walk
increments, in walk order (specification mirror of `cladeWalk`). -/
def walkIds (st : Store) : Nat → TaxonNode → Option (List Int)
  | 0, _ => none
  | f + 1, r =>
    if r.parentTaxId = r.taxId then some []
    else
      (nodeExistsOpt st r.parentTaxId).bind (fun pex =>
        if pex then
          (taxonNodeStrict st r.parentTaxId true).bind (fun p =>
            (walkIds st f p).map (fun ids => p.taxId :: ids))
        else some [])

/-- Sum of the `taxCount` (self count) column of a clade-count map. -/
def sumTax (m : List (Int × TaxonCounts)) : Nat :=
  (m.map (fun p => p.2.taxCount)).sum

/-- Sum of the counts of an input list. -/
def sumInput (l : List (Int × Nat)) : Nat :=
  (l.map Prod.snd).sum

/-- Sum of the counts of the input entries whose id is known in the store. -/
def sumKnown (st : Store) (l : List (Int × Nat)) : Nat :=
  ((l.filter (fun p => nodeExistsOpt st p.1 == some true)).map Prod.snd).sum

/-- `cladeCount` at a key (0 when absent). -/
def lookupClade (m : List (Int × TaxonCounts)) (k : Int) : Nat :=
  ((m.lookup k).map (fun tc => tc.cladeCount)).getD 0

/-- `taxCount` at a key (0 when absent). -/
def lookupTax (m : List (Int × TaxonCounts)) (k : Int) : Nat :=
  ((m.lookup k).map (fun tc => tc.taxCount)).getD 0

/-- Accumulated weight at a key of the weighted-majority map (0 when
absent). -/
def wmlWeight (m : List (Int × TaxAcc)) (k : Int) : ℚ :=
  ((m.lookup k).map (fun tn => tn.weight)).getD 0

/-- Candidate flag at a key of the weighted-majority map. -/
def wmlIsCand (m : List (Int × TaxAcc)) (k : Int) : Bool :=
  ((m.lookup k).map (fun tn => tn.isCandidate)).getD false

/- Concrete stores used by the counterexamples and witnesses. -/

/-- A two-record store whose first record is not the root: taxon 2 sits at
internal index 0 and the root (taxon 1) at internal index 1. -/
def recsSwap : List TaxonNode :=
  [⟨2, 1, "species", ""⟩, ⟨1, 1, "no rank", ""⟩]

/-- The engine built over `recsSwap`. -/
def taxSwap : Taxonomy :=
  (NcbiTaxonomy recsSwap [] []).getD ⟨⟨[], []⟩, [], [], []⟩

/-- Root 1 with children 2 and 3, and 4 a child of 2. -/
def recsTree : List TaxonNode :=
  [⟨1, 1, "no rank", ""⟩, ⟨2, 1, "genus", ""⟩, ⟨3, 1, "genus", ""⟩, ⟨4, 2, "species", ""⟩]

/-- The engine built over `recsTree`. -/
def taxTree : Taxonomy :=
  (NcbiTaxonomy recsTree [] []).getD ⟨⟨[], []⟩, [], [], []⟩

/-- Root 1 with three children: depth array `[0,1,0,1,0,1,0,-1]`, whose
window `[2,6]` has its minimum at positions 2, 4 and 6. -/
def recsFan : List TaxonNode :=
  [⟨1, 1, "no rank", ""⟩, ⟨2, 1, "a", ""⟩, ⟨3, 1, "b", ""⟩, ⟨4, 1, "c", ""⟩]

/-- The engine built over `recsFan`. -/
def taxFan : Taxonomy :=
  (NcbiTaxonomy recsFan [] []).getD ⟨⟨[], []⟩, [], [], []⟩

/-- Rank layout refuting the lineage-minimum reading of the selection walk:
3 (rank `order`, index 5) is below 2 (rank `kingdom`, index 2), and 4
(rank `class`, index 4) is a separate child of the root. -/
def recsRank : List TaxonNode :=
  [⟨1, 1, "no rank", ""⟩, ⟨2, 1, "kingdom", ""⟩, ⟨3, 2, "order", ""⟩, ⟨4, 1, "class", ""⟩]

/-- The store built over `recsRank`. -/
def stRank : Store := (loadNodes recsRank).getD ⟨[], []⟩

/-- Rank layout for the monotonicity counterexample: 4 (unranked) below
3 (`order`, 5) below 2 (`superkingdom`, 1); 5 (`kingdom`, 2) beside them. -/
def recsMono : List TaxonNode :=
  [⟨1, 1, "no rank", ""⟩, ⟨2, 1, "superkingdom", ""⟩, ⟨3, 2, "order", ""⟩,
   ⟨4, 3, "no rank", ""⟩, ⟨5, 1, "kingdom", ""⟩]

/-- The store built over `recsMono`. -/
def stMono : Store := (loadNodes recsMono).getD ⟨[], []⟩

/-- A one-record store (root only), for the out-of-bounds lookup
counterexample. -/
def stOne : Store := (loadNodes [⟨1, 1, "no rank", "x"⟩]).getD ⟨[], []⟩

/-- Two names-dump lines for the same id: the first has class
`scientific name`; the second's class is `synonym` but its name column
contains the phrase, so the code retains it too and it overwrites the
first. -/
def linesTwo : List String :=
  ["1\t|\tAlpha\t|\t\t|\tscientific name\t|",
   "1\t|\tcontains scientific name inside\t|\t\t|\tsynonym\t|"]

/-! ### Euler-traversal verification infrastructure -/

/-- Every record of the store resolves through the id table to its own
internal index (`D[r.taxId]` is the record's index).  Stated over `enum`
so that it is decidable on a concrete store. -/
def idsInvert (st : Store) : Prop :=
  ∀ p ∈ st.taxonNodes.enum, nodeIdOpt st p.2.taxId = some p.1

instance (st : Store) : Decidable (idsInvert st) :=
  inferInstanceAs (Decidable (∀ p ∈ st.taxonNodes.enum, nodeIdOpt st p.2.taxId = some p.1))

/-- Every record's parent id resolves to a record that actually bears the
parent id. -/
def parentsResolve (st : Store) : Prop :=
  ∀ r ∈ st.taxonNodes,
    ((nodeIdOpt st r.parentTaxId).bind (fun ip => st.taxonNodes.get? ip)).map
      (fun rp => rp.taxId) = some r.parentTaxId

instance (st : Store) : Decidable (parentsResolve st) :=
  inferInstanceAs (Decidable (∀ r ∈ st.taxonNodes,
    ((nodeIdOpt st r.parentTaxId).bind (fun ip => st.taxonNodes.get? ip)).map
      (fun rp => rp.taxId) = some r.parentTaxId))

/-- Every record's parent chain reaches taxon 1 within `N + 1` hops. -/
def chainsReachRoot (st : Store) : Prop :=
  ∀ r ∈ st.taxonNodes,
    (rootDist st (st.taxonNodes.length + 1) r.taxId).isSome = true

instance (st : Store) : Decidable (chainsReachRoot st) :=
  inferInstanceAs (Decidable (∀ r ∈ st.taxonNodes,
    (rootDist st (st.taxonNodes.length + 1) r.taxId).isSome = true))

/-- Taxon 1 resolves to internal index `ir`, whose record bears id 1 and is
its own parent. -/
def rootAt (st : Store) (ir : Nat) : Prop :=
  nodeIdOpt st 1 = some ir ∧
    (st.taxonNodes.get? ir).map (fun rr => (rr.taxId, rr.parentTaxId)) =
      some ((1 : Int), (1 : Int))

instance (st : Store) (ir : Nat) : Decidable (rootAt st ir) :=
  inferInstanceAs (Decidable (nodeIdOpt st 1 = some ir ∧
    (st.taxonNodes.get? ir).map (fun rr => (rr.taxId, rr.parentTaxId)) =
      some ((1 : Int), (1 : Int))))

/-- First-visit position of taxon `v` in the ghost visit list (`0` when
absent, matching the `H[id] == 0` "unset" convention of the code). -/
def visPos (vis : List (Int × Nat)) (v : Int) : Nat :=
  ((vis.find? (fun q => q.1 == v)).map Prod.snd).getD 0

/-- Invariant tying the ghost visit list to the first-occurrence table `H`
during the Euler traversal. -/
def HInv (st : Store) (s : EState) : Prop :=
  s.H.length = st.taxonNodes.length ∧
    ∀ p ∈ st.taxonNodes.enum, s.H.getD p.1 0 = visPos s.vis p.2.taxId

/-- The children of internal index `pid` as recorded by `buildChildren`
while folding over `l` (specification mirror). -/
def childrenOf (st : Store) (l : List TaxonNode) (pid : Nat) : List Int :=
  (l.filter (fun r =>
    (r.parentTaxId != r.taxId) && (nodeIdOpt st r.parentTaxId == some pid))).map
    (fun r => r.taxId)

/-- Characterisation of the children table: each slot lists exactly the
taxon ids of the non-self-parent records whose parent resolves to that
internal index, without repetition. -/
def ChSpec (st : Store) (ch : List (List Int)) : Prop :=
  ch.length = st.taxonNodes.length ∧
    ∀ pid : Nat, (ch.getD pid []).Nodup ∧
      ∀ c : Int, c ∈ ch.getD pid [] ↔
        ∃ r ∈ st.taxonNodes, r.taxId = c ∧ r.parentTaxId ≠ c ∧
          nodeIdOpt st r.parentTaxId = some pid

/-- Structural description of what one successful `elh` call appends to the
traversal state: the tour segment `delta`, the visit segment `vdelta`, and
their entry/exit, level, ancestry, uniqueness and closure properties. -/
inductive ElhOut (st : Store) (ch : List (List Int)) (t : Int) (lvl : Int)
    (dt : Nat) (s s' : EState) : Prop where
  | mk
    (delta : List (Nat × Int))
    (vdelta : List (Int × Nat))
    (it : Nat)
    (rt : TaxonNode)
    (pid : Nat)
    (hid : nodeIdOpt st t = some it)
    (hrt : st.taxonNodes.get? it = some rt)
    (hrtid : rt.taxId = t)
    (htour : s'.tour = s.tour ++ delta)
    (hvis : s'.vis = s.vis ++ vdelta)
    (hlen : delta.length = 2 * vdelta.length)
    (hvhead : vdelta.head? = some (t, s.tour.length))
    (hdhead : delta.head? = some (it, lvl))
    (hpid : nodeIdOpt st rt.parentTaxId = some pid)
    (hlast : delta.getLast? = some (pid, lvl - 1))
    (hbody : ∀ e ∈ delta.dropLast, lvl ≤ e.2 ∧ (e.2 = lvl → e.1 = it))
    (hmem : ∀ v ∈ vdelta, ∃ k g iv rv,
      ancT st k v.1 = some t ∧ rootDist st g v.1 = some (dt + k) ∧
      nodeIdOpt st v.1 = some iv ∧ st.taxonNodes.get? iv = some rv ∧
      rv.taxId = v.1 ∧ s.tour.length ≤ v.2 ∧
      s'.tour.get? v.2 = some (iv, lvl + (k : Int)))
    (hnodup : (vdelta.map Prod.fst).Nodup)
    (hclosed : ∀ v ∈ vdelta, ∀ iv, nodeIdOpt st v.1 = some iv →
      ∀ c ∈ ch.getD iv [], ∃ q, (c, q) ∈ vdelta) : ElhOut st ch t lvl dt s s'

/-- Invariant of the accumulator while the `elh` call on internal index
`it` folds over its children: the processed prefix `done` has contributed
balanced subtree segments. -/
def FoldSt (st : Store) (ch : List (List Int)) (s1 : EState) (it : Nat)
    (lvl : Int) (dt : Nat) (done : List Int) (acc : EState) : Prop :=
  ∃ dTour dVis,
    acc.tour = s1.tour ++ dTour ∧ acc.vis = s1.vis ++ dVis ∧
    dTour.length = 2 * dVis.length ∧
    (∀ e ∈ dTour, lvl ≤ e.2 ∧ (e.2 = lvl → e.1 = it)) ∧
    (∀ v ∈ dVis, ∃ k c g iv rv, c ∈ done ∧ ancT st k v.1 = some c ∧
      rootDist st g v.1 = some (dt + 1 + k) ∧ nodeIdOpt st v.1 = some iv ∧
      st.taxonNodes.get? iv = some rv ∧ rv.taxId = v.1 ∧
      s1.tour.length ≤ v.2 ∧ acc.tour.get? v.2 = some (iv, lvl + 1 + (k : Int))) ∧
    (dVis.map Prod.fst).Nodup ∧
    (∀ v ∈ dVis, ∀ iv, nodeIdOpt st v.1 = some iv →
      ∀ c ∈ ch.getD iv [], ∃ q, (c, q) ∈ dVis) ∧
    (∀ c ∈ done, ∃ q, (c, q) ∈ dVis)

/-- A three-record store in which neither the root (internal index 1) nor
the leaf taxon 3 (internal index 2) sits at internal index 0. -/
def recsThree : List TaxonNode :=
  [⟨2, 1, "genus", ""⟩, ⟨1, 1, "no rank", ""⟩, ⟨3, 2, "species", ""⟩]

/-- The engine built over `recsThree`. -/
def taxThree : Taxonomy :=
  (NcbiTaxonomy recsThree [] []).getD ⟨⟨[], []⟩, [], [], []⟩

/-- A constructible store containing a two-cycle (2 ↔ 3) disconnected from
the root: every parent id exists, so loading succeeds, but the traversal
never reaches taxa 2 and 3. -/
def recsCyc : List TaxonNode :=
  [⟨2, 3, "a", ""⟩, ⟨3, 2, "b", ""⟩, ⟨1, 1, "no rank", ""⟩]

/-- The engine built over `recsCyc`. -/
def taxCyc : Taxonomy :=
  (NcbiTaxonomy recsCyc [] []).getD ⟨⟨[], []⟩, [], [], []⟩

/-! ## Theorems -/

theorem getD_set_ne {l : List Int} {i k : Nat} (h : i ≠ k) (v : Int) :
    (l.set i v).getD k (-1) = l.getD k (-1) := by
  simp [List.getD_eq_getElem?_getD, List.getElem?_set_ne h]

theorem getD_replicate_neg {n k : Nat} :
    ((List.replicate n (-1 : Int)).getD k (-1)) = -1 := by
  by_cases h : k < n <;>
    simp [List.getD_eq_getElem?_getD, List.getElem?_replicate, h]

/-- Any nonnegative slot of the table built by `buildD` comes from a record
with that taxon id. -/
theorem buildD_mem_aux (l : List (Nat × TaxonNode)) (acc : List Int) (k : Nat)
    (h : ((l.foldl
      (fun D p =>
        if D.getD p.2.taxId.toNat (-1) = -1 then D.set p.2.taxId.toNat (p.1 : Int) else D)
      acc).getD k (-1)) ≠ -1) :
    acc.getD k (-1) ≠ -1 ∨ ∃ p ∈ l, p.2.taxId.toNat = k := by
  induction l generalizing acc with
  | nil => exact Or.inl h
  | cons p rest ih =>
    rw [List.foldl_cons] at h
    rcases ih _ h with h1 | h1
    · by_cases hc : acc.getD p.2.taxId.toNat (-1) = -1
      · rw [if_pos hc] at h1
        by_cases hk : p.2.taxId.toNat = k
        · exact Or.inr ⟨p, List.mem_cons_self _ _, hk⟩
        · rw [getD_set_ne hk] at h1
          exact Or.inl h1
      · rw [if_neg hc] at h1
        exact Or.inl h1
    · rcases h1 with ⟨q, hq, hqk⟩
      exact Or.inr ⟨q, List.mem_cons_of_mem _ hq, hqk⟩

theorem buildD_fold_length (l : List (Nat × TaxonNode)) (acc : List Int) :
    (l.foldl (fun D p =>
      if D.getD p.2.taxId.toNat (-1) = -1 then D.set p.2.taxId.toNat (p.1 : Int) else D)
      acc).length = acc.length := by
  induction l generalizing acc with
  | nil => rfl
  | cons p rest ih =>
    rw [List.foldl_cons, ih]
    split <;> simp

theorem buildD_spec {records : List TaxonNode} {D : List Int}
    (h : buildD records = some D) :
    D.length = (maxTaxID records).toNat + 1 ∧
      (∀ r ∈ records, 0 ≤ r.taxId) ∧
      (∀ k : Nat, D.getD k (-1) ≠ -1 → ∃ r ∈ records, r.taxId.toNat = k) := by
  unfold buildD at h
  by_cases hall : records.all (fun r => 0 ≤ r.taxId)
  · rw [if_pos hall] at h
    have hD : D = records.enum.foldl
        (fun D p =>
          if D.getD p.2.taxId.toNat (-1) = -1 then D.set p.2.taxId.toNat (p.1 : Int) else D)
        (List.replicate ((maxTaxID records).toNat + 1) (-1)) :=
      (Option.some_inj.mp h).symm
    subst hD
    refine ⟨?_, ?_, ?_⟩
    · rw [buildD_fold_length]
      simp
    · intro r hr
      exact of_decide_eq_true (List.all_eq_true.mp hall r hr)
    · intro k hk
      rcases buildD_mem_aux _ _ _ hk with h1 | h1
      · exact absurd getD_replicate_neg h1
      · rcases h1 with ⟨p, hp, hpk⟩
        have hmem : p.2 ∈ records.enum.map Prod.snd := List.mem_map_of_mem _ hp
        rw [List.enum_map_snd] at hmem
        exact ⟨p.2, hmem, hpk⟩
  · rw [if_neg hall] at h
    exact absurd h (by simp)

theorem loadNodes_spec {records : List TaxonNode} {st : Store}
    (h : loadNodes records = some st) :
    st.taxonNodes = records ∧ buildD records = some st.D ∧
      ∀ r ∈ records, nodeExistsOpt st r.parentTaxId = some true := by
  unfold loadNodes at h
  cases hb : buildD records with
  | none => rw [hb] at h; exact absurd h (by simp)
  | some D =>
    rw [hb] at h
    simp only [Option.some_bind] at h
    by_cases hall : records.all (fun r => nodeExistsOpt ⟨records, D⟩ r.parentTaxId == some true)
    · rw [if_pos hall] at h
      have hst : st = ⟨records, D⟩ := (Option.some_inj.mp h).symm
      subst hst
      refine ⟨rfl, rfl, fun r hr => ?_⟩
      exact eq_of_beq (List.all_eq_true.mp hall r hr)
    · rw [if_neg hall] at h
      exact absurd h (by simp)

theorem mergedStep_spec {st : Store} {p : Int × Int} {st' : Store}
    (h : mergedStep st p = some st') :
    st'.taxonNodes = st.taxonNodes ∧ st'.D.length = st.D.length := by
  unfold mergedStep at h
  cases he : nodeExistsOpt st p.1 with
  | none => rw [he] at h; exact absurd h (by simp)
  | some eOld =>
    rw [he] at h
    simp only [Option.some_bind] at h
    by_cases h1 : eOld
    · rw [if_pos h1] at h
      cases Option.some_inj.mp h
      exact ⟨rfl, rfl⟩
    · rw [if_neg h1] at h
      cases he2 : nodeExistsOpt st p.2 with
      | none => rw [he2] at h; exact absurd h (by simp)
      | some eNew =>
        rw [he2] at h
        simp only [Option.some_bind] at h
        by_cases h2 : eNew
        · rw [if_pos h2] at h
          cases hd : st.D.get? p.2.toNat with
          | none => rw [hd] at h; exact absurd h (by simp)
          | some dNew =>
            rw [hd] at h
            simp only [Option.map_some'] at h
            cases Option.some_inj.mp h
            exact ⟨rfl, by simp⟩
        · rw [if_neg h2] at h
          cases Option.some_inj.mp h
          exact ⟨rfl, rfl⟩

theorem loadMerged_spec {pairs : List (Int × Int)} :
    ∀ {st st' : Store}, loadMerged st pairs = some st' →
      st'.taxonNodes = st.taxonNodes ∧ st'.D.length = st.D.length := by
  induction pairs with
  | nil =>
    intro st st' h
    cases Option.some_inj.mp h
    exact ⟨rfl, rfl⟩
  | cons p rest ih =>
    intro st st' h
    unfold loadMerged at h
    rw [List.foldlM_cons] at h
    cases hs : mergedStep st p with
    | none => rw [hs] at h; exact absurd h (by simp)
    | some st1 =>
      rw [hs] at h
      have h1 := mergedStep_spec hs
      have h2 := ih h
      exact ⟨h2.1.trans h1.1, h2.2.trans h1.2⟩

theorem loadNamesStep_spec {st : Store} {l : String} {st' : Store}
    (h : loadNamesStep st l = some st') :
    st'.D = st.D ∧ st'.taxonNodes.length = st.taxonNodes.length ∧
      ∀ i : Nat, ((st'.taxonNodes.get? i).map (fun r => (r.taxId, r.parentTaxId, r.rank))) =
        ((st.taxonNodes.get? i).map (fun r => (r.taxId, r.parentTaxId, r.rank))) := by
  unfold loadNamesStep at h
  by_cases hc : strContains l "scientific name"
  · rw [if_pos hc] at h
    cases hp : parseNameM l with
    | none => rw [hp] at h; exact absurd h (by simp)
    | some e =>
      rw [hp] at h
      simp only [Option.some_bind] at h
      cases he : nodeExistsOpt st e.1 with
      | none => rw [he] at h; exact absurd h (by simp)
      | some b =>
        cases b with
        | false => rw [he] at h; exact absurd h (by simp)
        | true =>
          rw [he] at h
          cases hi : nodeIdOpt st e.1 with
          | none => rw [hi] at h; exact absurd h (by simp)
          | some j =>
            rw [hi] at h
            simp only [Option.some_bind] at h
            cases hr : st.taxonNodes.get? j with
            | none => rw [hr] at h; exact absurd h (by simp)
            | some r =>
              rw [hr] at h
              simp only [Option.map_some'] at h
              cases Option.some_inj.mp h
              refine ⟨rfl, by simp, fun i => ?_⟩
              rcases List.get?_eq_some.mp hr with ⟨hlt, -⟩
              by_cases hij : j = i
              · subst hij
                simp only [List.get?_eq_getElem?, List.getElem?_set_self hlt, hr]
                rw [List.get?_eq_getElem?] at hr
                rw [hr]
                rfl
              · simp only [List.get?_eq_getElem?, List.getElem?_set_ne hij]
  · rw [if_neg hc] at h
    cases Option.some_inj.mp h
    exact ⟨rfl, rfl, fun _ => rfl⟩

theorem loadNames_spec {lines : List String} :
    ∀ {st st' : Store}, loadNames st lines = some st' →
      st'.D = st.D ∧ st'.taxonNodes.length = st.taxonNodes.length ∧
        ∀ i : Nat, ((st'.taxonNodes.get? i).map (fun r => (r.taxId, r.parentTaxId, r.rank))) =
          ((st.taxonNodes.get? i).map (fun r => (r.taxId, r.parentTaxId, r.rank))) := by
  induction lines with
  | nil =>
    intro st st' h
    cases Option.some_inj.mp h
    exact ⟨rfl, rfl, fun _ => rfl⟩
  | cons l rest ih =>
    intro st st' h
    unfold loadNames at h
    rw [List.foldlM_cons] at h
    cases hs : loadNamesStep st l with
    | none => rw [hs] at h; exact absurd h (by simp)
    | some st1 =>
      rw [hs] at h
      have h1 := loadNamesStep_spec hs
      have h2 := ih h
      exact ⟨h2.1.trans h1.1, h2.2.1.trans h1.2.1, fun i => (h2.2.2 i).trans (h1.2.2 i)⟩

/-- Inversion of the constructor pipeline. -/
theorem NcbiTaxonomy_spec {nodes : List TaxonNode} {merged : List (Int × Int)}
    {names : List String} {T : Taxonomy}
    (h : NcbiTaxonomy nodes merged names = some T) :
    ∃ st0 st1 ch s,
      loadNodes nodes = some st0 ∧ loadMerged st0 merged = some st1 ∧
      loadNames st1 names = some T.store ∧ buildChildren T.store = some ch ∧
      elh T.store ch (T.store.taxonNodes.length + 1) 1 0
        ⟨[], List.replicate T.store.taxonNodes.length 0, []⟩ = some s ∧
      T.E = resizeTo (s.tour.map Prod.fst) (2 * T.store.taxonNodes.length) 0 ∧
      T.L = resizeTo (s.tour.map Prod.snd) (2 * T.store.taxonNodes.length) 0 ∧
      T.H = s.H := by
  unfold NcbiTaxonomy at h
  cases h0 : loadNodes nodes with
  | none => rw [h0] at h; exact absurd h (by simp)
  | some st0 =>
    rw [h0] at h
    simp only [Option.some_bind] at h
    cases h1 : loadMerged st0 merged with
    | none => rw [h1] at h; exact absurd h (by simp)
    | some st1 =>
      rw [h1] at h
      simp only [Option.some_bind] at h
      cases h2 : loadNames st1 names with
      | none => rw [h2] at h; exact absurd h (by simp)
      | some st =>
        rw [h2] at h
        simp only [Option.some_bind] at h
        cases h3 : buildChildren st with
        | none => rw [h3] at h; exact absurd h (by simp)
        | some ch =>
          rw [h3] at h
          simp only [Option.some_bind] at h
          cases h4 : elh st ch (st.taxonNodes.length + 1) 1 0
              ⟨[], List.replicate st.taxonNodes.length 0, []⟩ with
          | none => rw [h4] at h; exact absurd h (by simp)
          | some s =>
            rw [h4] at h
            simp only [Option.map_some'] at h
            have hT : T = { store := st
                            E := resizeTo (s.tour.map Prod.fst) (2 * st.taxonNodes.length) 0
                            L := resizeTo (s.tour.map Prod.snd) (2 * st.taxonNodes.length) 0
                            H := s.H } := (Option.some_inj.mp h).symm
            subst hT
            exact ⟨st0, st1, ch, s, rfl, h1, h2, h3, h4, rfl, rfl, rfl⟩

theorem nodeExistsOpt_some_true {st : Store} {t : Int} :
    nodeExistsOpt st t = some true ↔
      ¬ t < 0 ∧ ∃ d, st.D.get? t.toNat = some d ∧ d ≠ -1 := by
  unfold nodeExistsOpt
  by_cases h : t < 0
  · simp [h]
  · simp only [if_neg h, Option.map_eq_some']
    constructor
    · rintro ⟨d, hd, hdec⟩
      exact ⟨h, d, hd, of_decide_eq_true hdec⟩
    · rintro ⟨-, d, hd, hne⟩
      exact ⟨d, hd, decide_eq_true hne⟩

theorem nodeIdOpt_some {st : Store} {t : Int} {i : Nat}
    (h : nodeIdOpt st t = some i) :
    nodeExistsOpt st t = some true ∧
      ∃ d, st.D.get? t.toNat = some d ∧ d ≠ -1 ∧ 0 ≤ d ∧ d.toNat = i := by
  unfold nodeIdOpt at h
  cases he : nodeExistsOpt st t with
  | none => rw [he] at h; exact absurd h (by simp)
  | some b =>
    cases b with
    | false => rw [he] at h; exact absurd h (by simp)
    | true =>
      rw [he] at h
      cases hd : st.D.get? t.toNat with
      | none => rw [hd] at h; exact absurd h (by simp)
      | some d =>
        rw [hd] at h
        have h' : (if d < 0 then none else some d.toNat) = some i := h
        by_cases hneg : d < 0
        · rw [if_pos hneg] at h'; exact absurd h' (by simp)
        · rw [if_neg hneg] at h'
          have hne : d ≠ -1 := by
            rcases (nodeExistsOpt_some_true.mp he).2 with ⟨d', hd', hne'⟩
            rw [hd] at hd'
            cases Option.some_inj.mp hd'
            exact hne'
          exact ⟨rfl, d, rfl, hne, le_of_not_lt hneg, Option.some_inj.mp h'⟩

/-- A successful run of `elh` resolves its root taxon id. -/
theorem elh_succ_root {st : Store} {ch : List (List Int)} {f : Nat} {t : Int}
    {lvl : Int} {s s' : EState} (h : elh st ch (f + 1) t lvl s = some s') :
    ∃ id, nodeIdOpt st t = some id := by
  rw [elh] at h
  cases hni : nodeIdOpt st t with
  | none => rw [hni] at h; exact absurd h (by simp)
  | some id => exact ⟨id, rfl⟩

theorem nodeExistsOpt_isSome {st : Store} {t : Int} :
    (nodeExistsOpt st t).isSome ↔ 0 ≤ t ∧ t.toNat < st.D.length := by
  unfold nodeExistsOpt
  by_cases h : t < 0
  · simp [h, not_le.mpr h]
  · have h0 : 0 ≤ t := not_lt.mp h
    simp only [if_neg h, Option.isSome_map', List.get?_eq_getElem?]
    constructor
    · intro hs
      refine ⟨h0, ?_⟩
      by_contra hge
      rw [List.getElem?_eq_none (le_of_not_lt hge)] at hs
      exact absurd hs (by simp)
    · rintro ⟨-, hlt⟩
      rw [List.getElem?_eq_getElem hlt]
      rfl

/-- C9, amended.  Lookups complete (report present or absent) exactly for
external ids inside the direct-addressed table, i.e. `0 ≤ id ≤ maxTaxID`;
outside that range the table read is out of bounds. -/
theorem claim_C9 {nodes : List TaxonNode} {merged : List (Int × Int)}
    {names : List String} {T : Taxonomy}
    (h : NcbiTaxonomy nodes merged names = some T) (t : Int) :
    (nodeExistsOpt T.store t).isSome ↔ 0 ≤ t ∧ t.toNat < (maxTaxID nodes).toNat + 1 := by
  obtain ⟨st0, st1, ch, s, h0, h1, h2, -, -, -, -, -⟩ := NcbiTaxonomy_spec h
  obtain ⟨-, hbD, -⟩ := loadNodes_spec h0
  have hlen0 : st0.D.length = (maxTaxID nodes).toNat + 1 := (buildD_spec hbD).1
  have hlen1 := (loadMerged_spec h1).2
  have hD2 := (loadNames_spec h2).1
  rw [nodeExistsOpt_isSome, hD2, hlen1, hlen0]

/-- C9 witness: the theorem applied to a concrete engine and id. -/
theorem claim_C9_witness :
    (nodeExistsOpt taxTree.store 7).isSome ↔
      0 ≤ (7 : Int) ∧ (7 : Int).toNat < (maxTaxID recsTree).toNat + 1 :=
  @claim_C9 recsTree [] [] taxTree (by decide) 7

/-- C9 counterexample: on a store whose largest seen id is 1 the lookup of
id 2 is an out-of-bounds table read (`none`), not a present/absent answer —
lookups do not tolerate every large but finite id. -/
theorem claim_C9_cex :
    loadNodes [⟨1, 1, "no rank", "x"⟩] = some stOne ∧
      maxTaxID [⟨1, 1, "no rank", "x"⟩] = 1 ∧
      nodeExistsOpt stOne 2 = none := by decide

/-- C10, amended.  When the merged input is empty, construction succeeds
only if some nodes record carries external id 1 (with a merged alias
`1 → live`, construction can succeed without such a record). -/
theorem claim_C10 {nodes : List TaxonNode} {names : List String} {T : Taxonomy}
    (h : NcbiTaxonomy nodes [] names = some T) :
    ∃ r ∈ nodes, r.taxId = 1 := by
  obtain ⟨st0, st1, ch, s, h0, h1, h2, -, h4, -, -, -⟩ := NcbiTaxonomy_spec h
  have hst1 : st1 = st0 := (Option.some_inj.mp h1).symm
  subst hst1
  obtain ⟨hrecs, hbD, -⟩ := loadNodes_spec h0
  have hD := (loadNames_spec h2).1
  obtain ⟨id, hid⟩ := elh_succ_root h4
  obtain ⟨-, d, hd, hne, hd0, -⟩ := nodeIdOpt_some hid
  rw [hD] at hd
  have hgetD : st1.D.getD (1 : Int).toNat (-1) ≠ -1 := by
    rw [List.getD_eq_getElem?_getD, ← List.get?_eq_getElem?, hd]
    simpa using hne
  obtain ⟨-, hpos, hmem⟩ := buildD_spec hbD
  obtain ⟨r, hr, hrk⟩ := hmem _ hgetD
  refine ⟨r, hr, ?_⟩
  have hge := hpos r hr
  have h1' : r.taxId.toNat = 1 := hrk
  omega

/-- C10 witness: the theorem applied to a concrete engine. -/
theorem claim_C10_witness : ∃ r ∈ recsTree, r.taxId = 1 :=
  @claim_C10 recsTree [] taxTree (by decide)

/-- C10 counterexample: with a merged row aliasing id 1 to live id 5,
construction succeeds although no nodes record has external id 1. -/
theorem claim_C10_cex :
    (NcbiTaxonomy [⟨5, 5, "no rank", ""⟩] [(1, 5)] []).isSome = true ∧
      ([⟨5, 5, "no rank", ""⟩] : List TaxonNode).all (fun r => r.taxId ≠ 1) = true := by
  decide

theorem nodeIdOpt_congr {st st' : Store} (hD : st.D = st'.D) (t : Int) :
    nodeIdOpt st t = nodeIdOpt st' t := by
  unfold nodeIdOpt nodeExistsOpt
  rw [hD]

theorem namesRelevantTo_congr {st st' : Store} (hD : st.D = st'.D) (i : Nat)
    (lines : List String) :
    namesRelevantTo st i lines = namesRelevantTo st' i lines := by
  unfold namesRelevantTo
  apply List.filter_congr
  intro l _
  rw [show ((parseNameM l).bind fun e => nodeIdOpt st e.1)
      = ((parseNameM l).bind fun e => nodeIdOpt st' e.1) from ?_]
  cases parseNameM l with
  | none => rfl
  | some e => exact nodeIdOpt_congr hD e.1

theorem lastNameFor_congr {st st' : Store} (hD : st.D = st'.D) (i : Nat)
    (lines : List String) (d : String) :
    lastNameFor st i lines d = lastNameFor st' i lines d := by
  unfold lastNameFor
  rw [namesRelevantTo_congr hD]

theorem lastNameFor_cons_pos {st : Store} {i : Nat} {l : String} {e : Int × String}
    (lines : List String)
    (hc : strContains l "scientific name" = true)
    (hp : parseNameM l = some e)
    (hj : nodeIdOpt st e.1 = some i) :
    ∀ d : String, lastNameFor st i (l :: lines) d = lastNameFor st i lines e.2 := by
  intro d
  unfold lastNameFor namesRelevantTo
  rw [List.filter_cons, if_pos ?_]
  · cases hrest : List.filter
        (fun l => strContains l "scientific name" &&
          ((parseNameM l).bind fun e => nodeIdOpt st e.1) == some i) lines with
    | nil => simp [hp]
    | cons x xs =>
      rw [List.getLast?_cons_cons]
      cases hy : (x :: xs).getLast? with
      | none => exact absurd hy (by simp)
      | some y =>
        have hymem : y ∈ x :: xs := List.mem_of_getLast?_eq_some hy
        rw [← hrest] at hymem
        have hpred := (List.mem_filter.mp hymem).2
        rcases Bool.and_eq_true_iff.mp hpred with ⟨-, hbeq⟩
        cases hpy : parseNameM y with
        | none => rw [hpy] at hbeq; exact absurd (eq_of_beq hbeq) (by simp)
        | some ey => simp [hpy]
  · rw [hp]
    simp [hc, hj]

theorem lastNameFor_cons_neg {st : Store} {i : Nat} {l : String}
    (lines : List String)
    (hno : (strContains l "scientific name" &&
      ((parseNameM l).bind (fun e => nodeIdOpt st e.1) == some i)) = false) :
    ∀ d : String, lastNameFor st i (l :: lines) d = lastNameFor st i lines d := by
  intro d
  unfold lastNameFor namesRelevantTo
  rw [List.filter_cons, if_neg (by simp [hno])]

/-- C4, amended.  A row is retained when the whole line contains
`"scientific name"` (the check is on the line, not the class field), and
when several retained rows resolve to the same record, the name stored is
the one from the last such row (each row overwrites the previous name). -/
theorem claim_C4 {lines : List String} :
    ∀ {st st' : Store}, loadNames st lines = some st' →
      ∀ i : Nat, st'.taxonNodes.get? i =
        (st.taxonNodes.get? i).map (fun r => { r with name := lastNameFor st i lines r.name }) := by
  induction lines with
  | nil =>
    intro st st' h i
    cases Option.some_inj.mp h
    cases hr : st.taxonNodes.get? i <;> simp [lastNameFor, namesRelevantTo]
  | cons l ls ih =>
    intro st st' h i
    unfold loadNames at h
    rw [List.foldlM_cons] at h
    cases hs : loadNamesStep st l with
    | none => rw [hs] at h; exact absurd h (by simp)
    | some st1 =>
      rw [hs] at h
      have hfold : loadNames st1 ls = some st' := h
      have hIH := ih hfold i
      have hD1 : st1.D = st.D := (loadNamesStep_spec hs).1
      -- unpack the step
      unfold loadNamesStep at hs
      by_cases hc : strContains l "scientific name"
      · rw [if_pos hc] at hs
        cases hp : parseNameM l with
        | none => rw [hp] at hs; exact absurd hs (by simp)
        | some e =>
          rw [hp] at hs
          simp only [Option.some_bind] at hs
          cases he : nodeExistsOpt st e.1 with
          | none => rw [he] at hs; exact absurd hs (by simp)
          | some b =>
            cases b with
            | false => rw [he] at hs; exact absurd hs (by simp)
            | true =>
              rw [he] at hs
              cases hj : nodeIdOpt st e.1 with
              | none => rw [hj] at hs; exact absurd hs (by simp)
              | some j =>
                rw [hj] at hs
                simp only [Option.some_bind] at hs
                cases hr : st.taxonNodes.get? j with
                | none => rw [hr] at hs; exact absurd hs (by simp)
                | some r =>
                  rw [hr] at hs
                  simp only [Option.map_some'] at hs
                  have hst1 : st1 = { st with
                      taxonNodes := st.taxonNodes.set j { r with name := e.2 } } :=
                    (Option.some_inj.mp hs).symm
                  subst hst1
                  rcases List.get?_eq_some.mp hr with ⟨hlt, -⟩
                  by_cases hij : j = i
                  · subst hij
                    rw [hIH]
                    simp only [List.get?_eq_getElem?, List.getElem?_set_self hlt]
                    rw [List.get?_eq_getElem?] at hr
                    rw [hr]
                    simp only [Option.map_some']
                    rw [lastNameFor_cons_pos ls hc hp hj, lastNameFor_congr hD1.symm]
                  · rw [hIH]
                    have hno : (strContains l "scientific name" &&
                        ((parseNameM l).bind (fun e => nodeIdOpt st e.1) == some i)) = false := by
                      rw [hp]
                      simp only [Option.some_bind, hj]
                      simp [hij]
                    simp only [List.get?_eq_getElem?, List.getElem?_set_ne hij,
                      lastNameFor_cons_neg ls hno, lastNameFor_congr hD1.symm]
      · rw [if_neg hc] at hs
        have hst1 : st1 = st := (Option.some_inj.mp hs).symm
        subst hst1
        rw [hIH]
        have hno : (strContains l "scientific name" &&
            ((parseNameM l).bind (fun e => nodeIdOpt st1 e.1) == some i)) = false := by
          simp [hc]
        simp only [lastNameFor_cons_neg ls hno]

/-- C4 witness: the theorem applied to a concrete store and lines. -/
theorem claim_C4_witness :
    (⟨[⟨1, 1, "no rank", "contains scientific name inside"⟩], [-1, 0]⟩ : Store).taxonNodes.get? 0 =
      (stOne.taxonNodes.get? 0).map
        (fun r => { r with name := lastNameFor stOne 0 linesTwo r.name }) :=
  claim_C4 (by decide) 0

/-- C4 counterexample: the second line's class field is `synonym` (it does
not contain the phrase), yet the line is retained because its name column
contains the phrase, and its name — not the first retained row's `Alpha` —
is the one stored. -/
theorem claim_C4_cex :
    ((loadNames stOne linesTwo).bind
        (fun st => (st.taxonNodes.get? 0).map (fun r => r.name)))
        = some "contains scientific name inside" ∧
      (parseNameM (linesTwo.getD 0 "")).map Prod.snd = some "Alpha" ∧
      strContains ((splitByDelimiter (linesTwo.getD 1 "") "\t|\t" 4).getD 3 "")
        "scientific name" = false := by
  decide

/-- Structure of the `taxLineage` walk: the collected vector starts at the
queried node, its last element is the one whose parent record is the
self-parent (root) record, and no element after the first is its own
parent. -/
theorem taxLineageVec_spec {st : Store} : ∀ {fuel : Nat} {node : TaxonNode}
    {vec : List TaxonNode}, taxLineageVec st fuel node = some vec →
    vec.head? = some node ∧
      (∃ m, vec.getLast? = some m ∧
        ∃ rt, taxonNodeStrict st m.parentTaxId true = some rt ∧
          rt.parentTaxId = rt.taxId) ∧
      ∀ x ∈ vec.tail, x.parentTaxId ≠ x.taxId := by
  intro fuel
  induction fuel with
  | zero => intro node vec h; exact absurd h (by simp [taxLineageVec])
  | succ f ih =>
    intro node vec h
    unfold taxLineageVec at h
    cases hn : taxonNodeStrict st node.parentTaxId true with
    | none => rw [hn] at h; exact absurd h (by simp)
    | some n' =>
      rw [hn] at h
      simp only [Option.some_bind] at h
      by_cases hne : n'.parentTaxId ≠ n'.taxId
      · rw [if_pos hne] at h
        cases hrec : taxLineageVec st f n' with
        | none => rw [hrec] at h; exact absurd h (by simp)
        | some v' =>
          rw [hrec] at h
          simp only [Option.map_some'] at h
          have hvec : vec = node :: v' := (Option.some_inj.mp h).symm
          subst hvec
          obtain ⟨hhead, ⟨m, hm, rt, hrt, hroot⟩, htail⟩ := ih hrec
          have hv' : v' ≠ [] := by
            intro hcon
            rw [hcon] at hhead
            exact absurd hhead (by simp)
          refine ⟨rfl, ⟨m, ?_, rt, hrt, hroot⟩, ?_⟩
          · cases v' with
            | nil => exact absurd rfl hv'
            | cons a as => rw [List.getLast?_cons_cons]; exact hm
          · intro x hx
            cases v' with
            | nil => exact absurd rfl hv'
            | cons a as =>
              have han : a = n' := by simpa using hhead
              rcases List.mem_cons.mp hx with hxa | hxas
              · subst hxa
                rw [han]
                exact hne
              · exact htail x hxas
      · rw [if_neg hne] at h
        have hvec : vec = [node] := (Option.some_inj.mp h).symm
        subst hvec
        exact ⟨rfl, ⟨node, rfl, n', hn, not_not.mp (fun hc => hne (fun he => hc he))⟩,
          fun x hx => absurd hx (by simp)⟩

/-- C2, amended.  The lineage string (tokens joined by `";"`) ends with
`a`'s external id, but it does not start at the root: its first token is
the id of the last node collected by the walk — the node whose parent is
the self-parent root record (`a` itself when `a` is the root or a child of
the root); the root's own id is emitted only when `a` is the root. -/
theorem claim_C2 {st : Store} {fuel : Nat} {node : TaxonNode} {vec : List TaxonNode}
    (h : taxLineageVec st fuel node = some vec) :
    (∀ shortRanks, taxLineage st shortRanks fuel node false =
        some (String.intercalate ";" (vec.reverse.map (fun n => toString n.taxId)))) ∧
      (vec.reverse.map (fun n => toString n.taxId)).getLast? =
        some (toString node.taxId) ∧
      (∃ m, vec.getLast? = some m ∧
        (vec.reverse.map (fun n => toString n.taxId)).head? = some (toString m.taxId) ∧
        ∃ rt, taxonNodeStrict st m.parentTaxId true = some rt ∧
          rt.parentTaxId = rt.taxId) ∧
      ∀ x ∈ vec.tail, x.parentTaxId ≠ x.taxId := by
  obtain ⟨hhead, ⟨m, hm, rt, hrt, hroot⟩, htail⟩ := taxLineageVec_spec h
  refine ⟨?_, ?_, ⟨m, hm, ?_, rt, hrt, hroot⟩, htail⟩
  · intro shortRanks
    unfold taxLineage
    rw [h]
    simp
  · rw [List.getLast?_map, List.getLast?_reverse, hhead]
    rfl
  · rw [List.head?_map, List.head?_reverse, hm]
    rfl

/-- C2 witness: the theorem applied to a concrete engine and node. -/
theorem claim_C2_witness :
    (∀ shortRanks, taxLineage taxTree.store shortRanks 10 ⟨4, 2, "species", ""⟩ false =
        some (String.intercalate ";"
          (([⟨4, 2, "species", ""⟩, ⟨2, 1, "genus", ""⟩] : List TaxonNode).reverse.map
            (fun n => toString n.taxId)))) ∧
      (([⟨4, 2, "species", ""⟩, ⟨2, 1, "genus", ""⟩] : List TaxonNode).reverse.map
          (fun n => toString n.taxId)).getLast? =
        some (toString (⟨4, 2, "species", ""⟩ : TaxonNode).taxId) ∧
      (∃ m, ([⟨4, 2, "species", ""⟩, ⟨2, 1, "genus", ""⟩] : List TaxonNode).getLast? = some m ∧
        (([⟨4, 2, "species", ""⟩, ⟨2, 1, "genus", ""⟩] : List TaxonNode).reverse.map
            (fun n => toString n.taxId)).head? = some (toString m.taxId) ∧
        ∃ rt, taxonNodeStrict taxTree.store m.parentTaxId true = some rt ∧
          rt.parentTaxId = rt.taxId) ∧
      ∀ x ∈ ([⟨4, 2, "species", ""⟩, ⟨2, 1, "genus", ""⟩] : List TaxonNode).tail,
        x.parentTaxId ≠ x.taxId :=
  claim_C2 (by decide)

/-- C2 counterexample: in the four-taxon tree the lineage string of taxon 4
is `"2;4"`; split at `";"` it begins with `"2"`, not with the root's id 1. -/
theorem claim_C2_cex :
    ((taxonNodeStrict taxTree.store 4 true).bind
        (fun n => taxLineage taxTree.store [] 10 n false)) = some "2;4" ∧
      (splitChar "2;4" ';').head? = some "2" ∧
      (taxTree.store.taxonNodes.get? 0).map (fun r => (r.taxId, r.parentTaxId)) =
        some (1, 1) ∧
      ¬ (splitChar "2;4" ';').head? = some "1" := by
  refine ⟨by decide, by decide, by decide, by decide⟩

theorem flog2Aux_eq_log2 : ∀ (f n : Nat), n ≤ f → flog2Aux f n = Nat.log2 n := by
  intro f
  induction f with
  | zero =>
    intro n hn
    have hn0 : n = 0 := by omega
    subst hn0
    rw [Nat.log2]
    norm_num [flog2Aux]
  | succ f ih =>
    intro n hn
    unfold flog2Aux
    by_cases h1 : n ≤ 1
    · rw [if_pos h1, Nat.log2]
      rw [if_neg (by omega)]
    · rw [if_neg h1, Nat.log2, if_pos (by omega), ih (n / 2) (by omega)]

theorem flog2_eq_log2 (n : Nat) : flog2 n = Nat.log2 n :=
  flog2Aux_eq_log2 n n le_rfl

/-- Range/argmin invariant of the sparse table, by induction on the level. -/
theorem sparseM_spec (L : List Int) :
    ∀ (j i : Nat), i + 2 ^ j ≤ L.length →
      i ≤ sparseM L i j ∧ sparseM L i j < i + 2 ^ j ∧
        ∀ q, i ≤ q → q < i + 2 ^ j → L.getD (sparseM L i j) 0 ≤ L.getD q 0 := by
  intro j
  induction j with
  | zero =>
    intro i hi
    refine ⟨le_refl i, by simp [sparseM], fun q hq1 hq2 => ?_⟩
    have hq : q = i := by simpa using Nat.le_antisymm (by omega) hq1
    rw [hq]
    simp [sparseM]
  | succ j ih =>
    intro i hi
    have hppos : 0 < 2 ^ j := Nat.two_pow_pos j
    have hpow : 2 ^ (j + 1) = 2 ^ j + 2 ^ j := by rw [pow_succ]; omega
    have hA := ih i (by omega)
    have hB := ih (i + 2 ^ j) (by omega)
    have heq : sparseM L i (j + 1) =
        (if L.getD (sparseM L i j) 0 < L.getD (sparseM L (i + 2 ^ j) j) 0 then sparseM L i j
         else sparseM L (i + 2 ^ j) j) := by
      rw [sparseM]
      rw [if_pos hi]
    rw [heq]
    by_cases hc : L.getD (sparseM L i j) 0 < L.getD (sparseM L (i + 2 ^ j) j) 0
    · rw [if_pos hc]
      refine ⟨hA.1, by omega, fun q hq1 hq2 => ?_⟩
      by_cases hq : q < i + 2 ^ j
      · exact hA.2.2 q hq1 hq
      · exact le_trans (le_of_lt hc) (hB.2.2 q (by omega) (by omega))
    · rw [if_neg hc]
      refine ⟨by omega, by omega, fun q hq1 hq2 => ?_⟩
      by_cases hq : q < i + 2 ^ j
      · exact le_trans (not_lt.mp hc) (hA.2.2 q hq1 hq)
      · exact hB.2.2 q (by omega) (by omega)

/-- Position and minimality correctness of `RangeMinimumQuery` over a
window inside the array (shared helper). -/
theorem rmq_min (L : List Int) (l r : Nat) (hlr : l ≤ r) (hr : r < L.length) :
    l ≤ rangeMinimumQuery L l r ∧ rangeMinimumQuery L l r ≤ r ∧
      ∀ q, l ≤ q → q ≤ r → L.getD (rangeMinimumQuery L l r) 0 ≤ L.getD q 0 := by
  have hn0 : r - l + 1 ≠ 0 := by omega
  have hk1 : 2 ^ flog2 (r - l + 1) ≤ r - l + 1 := by
    rw [flog2_eq_log2, Nat.log2_eq_log_two]
    exact Nat.pow_log_le_self 2 hn0
  have hk2 : r - l + 1 < 2 ^ (flog2 (r - l + 1) + 1) := by
    rw [flog2_eq_log2, Nat.log2_eq_log_two]
    exact Nat.lt_pow_succ_log_self (by omega) _
  have hp0 : 0 < 2 ^ flog2 (r - l + 1) := Nat.pos_pow_of_pos _ (by omega)
  have hpow : 2 ^ (flog2 (r - l + 1) + 1) = 2 ^ flog2 (r - l + 1) + 2 ^ flog2 (r - l + 1) := by
    rw [pow_succ]; omega
  have hA := sparseM_spec L (flog2 (r - l + 1)) l (by omega)
  have hB := sparseM_spec L (flog2 (r - l + 1)) (r + 1 - 2 ^ flog2 (r - l + 1)) (by omega)
  unfold rangeMinimumQuery
  by_cases hc : L.getD (sparseM L l (flog2 (r - l + 1))) 0 ≤
      L.getD (sparseM L (r + 1 - 2 ^ flog2 (r - l + 1)) (flog2 (r - l + 1))) 0
  · rw [if_pos hc]
    refine ⟨hA.1, by omega, fun q hq1 hq2 => ?_⟩
    by_cases hq : q < l + 2 ^ flog2 (r - l + 1)
    · exact hA.2.2 q hq1 hq
    · exact le_trans hc (hB.2.2 q (by omega) (by omega))
  · rw [if_neg hc]
    refine ⟨by omega, by omega, fun q hq1 hq2 => ?_⟩
    by_cases hq : q < l + 2 ^ flog2 (r - l + 1)
    · exact le_trans (le_of_lt (not_le.mp hc)) (hA.2.2 q hq1 hq)
    · exact hB.2.2 q (by omega) (by omega)

/-- C3, amended.  `rmq(l, r)` returns a position inside `[l, r]` holding the
minimum depth of the window; when the minimum is attained several times the
returned position is determined by the `<` build comparison (which prefers
the second half window) and the `<=` query comparison (which prefers the
left window) — it is not always the smallest minimising position. -/
theorem claim_C3 (L : List Int) (l r : Nat) (hlr : l ≤ r) (hr : r < L.length) :
    l ≤ rangeMinimumQuery L l r ∧ rangeMinimumQuery L l r ≤ r ∧
      ∀ q, l ≤ q → q ≤ r → L.getD (rangeMinimumQuery L l r) 0 ≤ L.getD q 0 :=
  rmq_min L l r hlr hr

/-- C3 witness: the theorem applied to a concrete depth array and window. -/
theorem claim_C3_witness :
    2 ≤ rangeMinimumQuery taxFan.L 2 6 ∧ rangeMinimumQuery taxFan.L 2 6 ≤ 6 ∧
      ∀ q, 2 ≤ q → q ≤ 6 →
        taxFan.L.getD (rangeMinimumQuery taxFan.L 2 6) 0 ≤ taxFan.L.getD q 0 :=
  claim_C3 taxFan.L 2 6 (by decide) (by decide)

/-- C3 counterexample: in the Euler depth array of the fan tree the window
`[2, 6]` attains its minimum 0 at positions 2, 4 and 6, yet the query
returns 4 — equal minima are not resolved to the smaller position. -/
theorem claim_C3_cex :
    taxFan.L = [0, 1, 0, 1, 0, 1, 0, -1] ∧
      rangeMinimumQuery taxFan.L 2 6 = 4 ∧
      taxFan.L.getD 2 0 = taxFan.L.getD 4 0 ∧ (2 : Nat) < 4 := by
  refine ⟨by decide, by decide, by decide, by decide⟩

theorem lookup_cladeUpdate (k k' : Int) (f : TaxonCounts → TaxonCounts) :
    ∀ m : List (Int × TaxonCounts),
      (cladeUpdate m k f).lookup k' =
        if k' = k then some (f ((m.lookup k).getD TaxonCounts.zero)) else m.lookup k' := by
  intro m
  induction m with
  | nil => by_cases h : k' = k <;> simp [cladeUpdate, h]
  | cons a rest ih =>
    rcases a with ⟨k2, v⟩
    simp only [cladeUpdate]
    by_cases hk : k = k2
    · subst hk
      rw [if_pos rfl]
      by_cases h : k' = k
      · subst h
        simp [List.lookup_cons]
      · have hb : (k' == k) = false := by simp [h]
        simp [List.lookup_cons, hb, h]
    · rw [if_neg hk]
      have hb2 : (k == k2) = false := by simp [hk]
      by_cases h : k' = k2
      · subst h
        have hne : k' ≠ k := fun hc => hk hc.symm
        simp [List.lookup_cons, hne, hb2]
      · have hb : (k' == k2) = false := by simp [h]
        rw [List.lookup_cons, List.lookup_cons]
        simp only [hb]
        rw [ih]
        by_cases h2 : k' = k
        · rw [if_pos h2, if_pos h2]
          simp only [hb2]
        · rw [if_neg h2, if_neg h2]
          simp only [List.lookup_cons, hb]

theorem lookup_cladeUpdate_self (m : List (Int × TaxonCounts)) (k : Int)
    (f : TaxonCounts → TaxonCounts) :
    (cladeUpdate m k f).lookup k = some (f ((m.lookup k).getD TaxonCounts.zero)) := by
  rw [lookup_cladeUpdate, if_pos rfl]

theorem lookup_cladeUpdate_ne (m : List (Int × TaxonCounts)) {k k' : Int}
    (h : k' ≠ k) (f : TaxonCounts → TaxonCounts) :
    (cladeUpdate m k f).lookup k' = m.lookup k' := by
  rw [lookup_cladeUpdate, if_neg h]

/-- `sumTax` is unchanged by an update whose modifier preserves `taxCount`
and creates entries with `taxCount = 0`. -/
theorem sumTax_cladeUpdate_pres (k : Int) (f : TaxonCounts → TaxonCounts)
    (hf : ∀ tc, (f tc).taxCount = tc.taxCount) :
    ∀ m : List (Int × TaxonCounts), sumTax (cladeUpdate m k f) = sumTax m := by
  intro m
  induction m with
  | nil => simp [cladeUpdate, sumTax, hf, TaxonCounts.zero]
  | cons a rest ih =>
    rcases a with ⟨k', v⟩
    simp only [cladeUpdate]
    by_cases hk : k = k'
    · subst hk
      rw [if_pos rfl]
      simp [sumTax, hf]
    · rw [if_neg hk]
      simp only [sumTax, List.map_cons, List.sum_cons] at ih ⊢
      omega

/-- Setting the `taxCount` of a key whose current `taxCount` is 0 adds the
new count to `sumTax`. -/
theorem sumTax_cladeUpdate_set (k : Int) (c : Nat) :
    ∀ m : List (Int × TaxonCounts), lookupTax m k = 0 →
      sumTax (cladeUpdate m k (fun tc => { tc with taxCount := c })) = sumTax m + c := by
  intro m
  induction m with
  | nil => intro _; simp [cladeUpdate, sumTax, TaxonCounts.zero]
  | cons a rest ih =>
    rcases a with ⟨k', v⟩
    intro h0
    simp only [cladeUpdate]
    by_cases hk : k = k'
    · subst hk
      have hv : v.taxCount = 0 := by
        simpa [lookupTax, List.lookup_cons] using h0
      rw [if_pos rfl]
      simp only [sumTax, List.map_cons, List.sum_cons]
      omega
    · have hb : (k == k') = false := by simp [hk]
      have h0' : lookupTax rest k = 0 := by
        unfold lookupTax at h0 ⊢
        rw [List.lookup_cons] at h0
        simpa [hb] using h0
      rw [if_neg hk]
      simp only [sumTax, List.map_cons, List.sum_cons] at ih ⊢
      rw [ih h0']
      omega

theorem lookupTax_cladeUpdate_pres (k k' : Int) (f : TaxonCounts → TaxonCounts)
    (hf : ∀ tc, (f tc).taxCount = tc.taxCount) (m : List (Int × TaxonCounts)) :
    lookupTax (cladeUpdate m k f) k' = lookupTax m k' := by
  unfold lookupTax
  by_cases hk : k' = k
  · subst hk
    rw [lookup_cladeUpdate_self]
    cases hl : m.lookup k' <;> simp [hl, hf, TaxonCounts.zero]
  · rw [lookup_cladeUpdate_ne m hk]

theorem lookupTax_cladeUpdate_ne (k k' : Int) (h : k' ≠ k)
    (f : TaxonCounts → TaxonCounts) (m : List (Int × TaxonCounts)) :
    lookupTax (cladeUpdate m k f) k' = lookupTax m k' := by
  unfold lookupTax
  rw [lookup_cladeUpdate_ne m h]

theorem lookupClade_cladeUpdate_pres (k k' : Int) (f : TaxonCounts → TaxonCounts)
    (hf : ∀ tc, (f tc).cladeCount = tc.cladeCount) (m : List (Int × TaxonCounts)) :
    lookupClade (cladeUpdate m k f) k' = lookupClade m k' := by
  unfold lookupClade
  by_cases hk : k' = k
  · subst hk
    rw [lookup_cladeUpdate_self]
    cases hl : m.lookup k' <;> simp [hl, hf, TaxonCounts.zero]
  · rw [lookup_cladeUpdate_ne m hk]

theorem lookupClade_cladeUpdate_add (k k' : Int) (c : Nat)
    (m : List (Int × TaxonCounts)) :
    lookupClade (cladeUpdate m k (fun tc => { tc with cladeCount := tc.cladeCount + c })) k' =
      lookupClade m k' + (if k' = k then c else 0) := by
  unfold lookupClade
  by_cases hk : k' = k
  · subst hk
    rw [lookup_cladeUpdate_self]
    cases hl : m.lookup k' <;> simp [hl, TaxonCounts.zero]
  · rw [lookup_cladeUpdate_ne m hk, if_neg hk]
    omega

/-- The ancestor walk of `getCladeCounts` adds `c` to the clade count of
exactly the taxa listed by `walkIds`, and touches nothing else. -/
theorem cladeWalk_spec {st : Store} {c : Nat} :
    ∀ {f : Nat} {r : TaxonNode} {m m' : List (Int × TaxonCounts)},
      cladeWalk st c f r m = some m' →
      ∃ ids, walkIds st f r = some ids ∧
        (∀ k, lookupClade m' k = lookupClade m k + c * ids.count k) ∧
        (∀ k, lookupTax m' k = lookupTax m k) ∧
        sumTax m' = sumTax m := by
  intro f
  induction f with
  | zero => intro r m m' h; exact absurd h (by simp [cladeWalk])
  | succ f ih =>
    intro r m m' h
    unfold cladeWalk at h
    by_cases hself : r.parentTaxId = r.taxId
    · rw [if_pos hself] at h
      cases Option.some_inj.mp h
      exact ⟨[], by simp [walkIds, hself], fun k => by simp, fun k => rfl, rfl⟩
    · rw [if_neg hself] at h
      cases hex : nodeExistsOpt st r.parentTaxId with
      | none => rw [hex] at h; exact absurd h (by simp)
      | some pex =>
        rw [hex] at h
        simp only [Option.some_bind] at h
        cases pex with
        | false =>
          rw [if_neg (by simp)] at h
          cases Option.some_inj.mp h
          refine ⟨[], ?_, fun k => by simp, fun k => rfl, rfl⟩
          unfold walkIds
          rw [if_neg hself, hex]
          simp
        | true =>
          rw [if_pos rfl] at h
          cases hp : taxonNodeStrict st r.parentTaxId true with
          | none => rw [hp] at h; exact absurd h (by simp)
          | some p =>
            rw [hp] at h
            simp only [Option.some_bind] at h
            obtain ⟨ids, hids, hclade, htax, hsum⟩ := ih h
            refine ⟨p.taxId :: ids, ?_, ?_, ?_, ?_⟩
            · unfold walkIds
              rw [if_neg hself, hex]
              simp [hp, hids]
            · intro k
              rw [hclade k, lookupClade_cladeUpdate_add]
              rw [List.count_cons]
              by_cases hkp : k = p.taxId
              · simp only [hkp, if_pos rfl, beq_self_eq_true, if_true]
                ring
              · have : (p.taxId == k) = false := by
                  simp [beq_iff_eq]
                  exact fun hc => hkp hc.symm
                simp [hkp, this]
            · intro k
              rw [htax k, lookupTax_cladeUpdate_pres]
              intro tc; rfl
            · rw [hsum, sumTax_cladeUpdate_pres]
              intro tc; rfl

/-- Effect of one `getCladeCounts` input entry on the totals. -/
theorem cladeStep_spec {st : Store} {fuel : Nat} {m m' : List (Int × TaxonCounts)}
    {p : Int × Nat} (h : cladeStep st fuel m p = some m')
    (h0 : lookupTax m p.1 = 0) :
    sumTax m' = sumTax m + p.2 ∧
      (∀ k, k ≠ p.1 → lookupTax m' k = lookupTax m k) ∧
      ((nodeExistsOpt st p.1 = some true ∧
          ∃ node ids, taxonNodeStrict st p.1 true = some node ∧
            walkIds st fuel node = some ids ∧
            lookupClade m' 1 = lookupClade m 1 + p.2 * ids.count 1 +
              (if (1 : Int) = p.1 then p.2 else 0)) ∨
        (¬ nodeExistsOpt st p.1 = some true ∧
          lookupClade m' 1 = lookupClade m 1 + (if (1 : Int) = p.1 then p.2 else 0))) := by
  unfold cladeStep at h
  simp only at h
  have hm1tax : ∀ k, k ≠ p.1 →
      lookupTax (cladeUpdate (cladeUpdate m p.1 (fun tc => { tc with taxCount := p.2 }))
        p.1 (fun tc => { tc with cladeCount := tc.cladeCount + p.2 })) k = lookupTax m k := by
    intro k hk
    rw [lookupTax_cladeUpdate_pres p.1 k
        (fun tc => { tc with cladeCount := tc.cladeCount + p.2 }) (fun tc => rfl),
      lookupTax_cladeUpdate_ne _ _ hk]
  have hm1sum : sumTax (cladeUpdate (cladeUpdate m p.1 (fun tc => { tc with taxCount := p.2 }))
      p.1 (fun tc => { tc with cladeCount := tc.cladeCount + p.2 })) = sumTax m + p.2 := by
    rw [sumTax_cladeUpdate_pres p.1
        (fun tc => { tc with cladeCount := tc.cladeCount + p.2 }) (fun tc => rfl),
      sumTax_cladeUpdate_set _ _ _ h0]
  have hm1clade : lookupClade (cladeUpdate (cladeUpdate m p.1
      (fun tc => { tc with taxCount := p.2 }))
      p.1 (fun tc => { tc with cladeCount := tc.cladeCount + p.2 })) 1 =
      lookupClade m 1 + (if (1 : Int) = p.1 then p.2 else 0) := by
    rw [lookupClade_cladeUpdate_add, lookupClade_cladeUpdate_pres p.1 1
        (fun tc => { tc with taxCount := p.2 }) (fun tc => rfl)]
  cases hex : nodeExistsOpt st p.1 with
  | none => rw [hex] at h; exact absurd h (by simp)
  | some ex =>
    rw [hex] at h
    simp only [Option.some_bind] at h
    cases ex with
    | false =>
      rw [if_neg (by simp)] at h
      cases Option.some_inj.mp h
      exact ⟨hm1sum, hm1tax, Or.inr ⟨by simp, hm1clade⟩⟩
    | true =>
      rw [if_pos rfl] at h
      cases hnode : taxonNodeStrict st p.1 true with
      | none => rw [hnode] at h; exact absurd h (by simp)
      | some node =>
        rw [hnode] at h
        simp only [Option.some_bind] at h
        obtain ⟨ids, hids, hclade, htax, hsum⟩ := cladeWalk_spec h
        refine ⟨by rw [hsum, hm1sum], fun k hk => by rw [htax k, hm1tax k hk],
          Or.inl ⟨rfl, node, ids, rfl, hids, ?_⟩⟩
        rw [hclade 1, hm1clade]
        ring

/-- A fold whose step preserves `sumTax` and `lookupClade` preserves them. -/
theorem foldlM_pres_TC
    (g : List (Int × TaxonCounts) → TaxonNode → Option (List (Int × TaxonCounts)))
    (hg : ∀ m tn m'', g m tn = some m'' →
      sumTax m'' = sumTax m ∧ ∀ k, lookupClade m'' k = lookupClade m k) :
    ∀ (l : List TaxonNode) {m m' : List (Int × TaxonCounts)},
      l.foldlM g m = some m' →
      sumTax m' = sumTax m ∧ ∀ k, lookupClade m' k = lookupClade m k := by
  intro l
  induction l with
  | nil =>
    intro m m' h
    cases Option.some_inj.mp h
    exact ⟨rfl, fun _ => rfl⟩
  | cons tn rest ih =>
    intro m m' h
    rw [List.foldlM_cons] at h
    cases hs : g m tn with
    | none => rw [hs] at h; exact absurd h (by simp)
    | some m1 =>
      rw [hs] at h
      obtain ⟨hsum1, hclade1⟩ := hg m tn m1 hs
      obtain ⟨hsum2, hclade2⟩ := ih h
      exact ⟨hsum2.trans hsum1, fun k => (hclade2 k).trans (hclade1 k)⟩

/-- The children-list phase of `getCladeCounts` changes neither `taxCount`
nor `cladeCount`. -/
theorem cladeChildren_pres {st : Store} {m m' : List (Int × TaxonCounts)}
    (h : cladeChildren st m = some m') :
    sumTax m' = sumTax m ∧ ∀ k, lookupClade m' k = lookupClade m k := by
  unfold cladeChildren at h
  refine foldlM_pres_TC _ ?_ st.taxonNodes h
  intro m0 tn m'' hg
  by_cases hc : tn.parentTaxId ≠ tn.taxId ∧ (m0.lookup tn.taxId).isSome
  · rw [if_pos hc] at hg
    by_cases hc2 : (m0.lookup tn.parentTaxId).isSome
    · rw [if_pos hc2] at hg
      cases Option.some_inj.mp hg
      constructor
      · rw [sumTax_cladeUpdate_pres tn.parentTaxId
          (fun tc => { tc with children := tc.children ++ [tn.taxId] }) (fun tc => rfl)]
      · intro k
        rw [lookupClade_cladeUpdate_pres tn.parentTaxId k
          (fun tc => { tc with children := tc.children ++ [tn.taxId] }) (fun tc => rfl)]
    · rw [if_neg hc2] at hg
      exact absurd hg (by simp)
  · rw [if_neg hc] at hg
    cases Option.some_inj.mp hg
    exact ⟨rfl, fun _ => rfl⟩

/-- Totals of the first phase of `getCladeCounts`, by induction over the
input entries. -/
theorem cladeFold_spec {st : Store} {fuel : Nat} :
    ∀ (input : List (Int × Nat)) {m m' : List (Int × TaxonCounts)},
      List.foldlM (cladeStep st fuel) m input = some m' →
      (∀ p ∈ input, lookupTax m p.1 = 0) →
      (input.map Prod.fst).Nodup →
      (∀ p ∈ input, nodeExistsOpt st p.1 = some true →
        ((taxonNodeStrict st p.1 true).bind (fun node => walkIds st fuel node)).map
          (fun ids => ids.count 1 + (if (1 : Int) = p.1 then 1 else 0)) = some 1) →
      (∀ p ∈ input, nodeExistsOpt st p.1 = some true ∨ p.1 ≠ 1) →
      sumTax m' = sumTax m + sumInput input ∧
        lookupClade m' 1 = lookupClade m 1 + sumKnown st input := by
  intro input
  induction input with
  | nil =>
    intro m m' h _ _ _ _
    cases Option.some_inj.mp h
    exact ⟨by simp [sumInput], by simp [sumKnown]⟩
  | cons p rest ih =>
    intro m m' h hzero hnodup hroot hunk
    rw [List.foldlM_cons] at h
    cases hs : cladeStep st fuel m p with
    | none => rw [hs] at h; exact absurd h (by simp)
    | some mn =>
      rw [hs] at h
      obtain ⟨hsum1, htax1, hclade1⟩ := cladeStep_spec hs (hzero p (List.mem_cons_self _ _))
      have hnodup2 : (p.1 :: rest.map Prod.fst).Nodup := by
        rw [List.map_cons] at hnodup
        exact hnodup
      have hnot : p.1 ∉ rest.map Prod.fst := (List.nodup_cons.mp hnodup2).1
      have hzero' : ∀ q ∈ rest, lookupTax mn q.1 = 0 := by
        intro q hq
        have hqne : q.1 ≠ p.1 := by
          intro hc
          exact hnot (hc ▸ List.mem_map_of_mem Prod.fst hq)
        rw [htax1 q.1 hqne]
        exact hzero q (List.mem_cons_of_mem _ hq)
      have hnodup' : (rest.map Prod.fst).Nodup := (List.nodup_cons.mp hnodup2).2
      obtain ⟨hsum2, hclade2⟩ := ih h hzero' hnodup'
        (fun q hq => hroot q (List.mem_cons_of_mem _ hq))
        (fun q hq => hunk q (List.mem_cons_of_mem _ hq))
      constructor
      · rw [hsum2, hsum1]
        simp [sumInput]
        ring
      · rw [hclade2]
        rcases hclade1 with ⟨hex, node, ids, hnode, hids, hcl⟩ | ⟨hex, hcl⟩
        · have hr := hroot p (List.mem_cons_self _ _) hex
          rw [hnode] at hr
          simp only [Option.some_bind, hids, Option.map_some'] at hr
          have hcount : ids.count 1 + (if (1 : Int) = p.1 then 1 else 0) = 1 :=
            Option.some_inj.mp hr
          rw [hcl]
          have hknown : sumKnown st (p :: rest) = p.2 + sumKnown st rest := by
            unfold sumKnown
            rw [List.filter_cons, if_pos (by simp [hex])]
            simp
          rw [hknown]
          by_cases h1 : (1 : Int) = p.1
          · rw [if_pos h1] at hcount ⊢
            have : ids.count 1 = 0 := by omega
            rw [this]
            ring
          · rw [if_neg h1] at hcount ⊢
            have : ids.count 1 = 1 := by omega
            rw [this]
            ring
        · have hne1 : p.1 ≠ 1 := by
            rcases hunk p (List.mem_cons_self _ _) with hk | hk
            · exact absurd hk hex
            · exact hk
          rw [hcl, if_neg (fun hc => hne1 hc.symm)]
          have hunknown : sumKnown st (p :: rest) = sumKnown st rest := by
            unfold sumKnown
            rw [List.filter_cons, if_neg (by simpa using hex)]
          rw [hunknown]
          ring

/-- C7, confirmed.  For a duplicate-free input whose known ids' ancestor
walks reach the root (taxon 1) exactly once, the self counts of the output
sum to the total input count, and the root's clade count is the sum of the
known entries' counts; unknown ids contribute only to their own entry. -/
theorem claim_C7 {st : Store} {fuel : Nat} {input : List (Int × Nat)}
    {out : List (Int × TaxonCounts)}
    (h : getCladeCounts st fuel input = some out)
    (hnodup : (input.map Prod.fst).Nodup)
    (hroot : ∀ p ∈ input, nodeExistsOpt st p.1 = some true →
      ((taxonNodeStrict st p.1 true).bind (fun node => walkIds st fuel node)).map
        (fun ids => ids.count 1 + (if (1 : Int) = p.1 then 1 else 0)) = some 1)
    (hunk : ∀ p ∈ input, nodeExistsOpt st p.1 = some true ∨ p.1 ≠ 1) :
    sumTax out = sumInput input ∧ lookupClade out 1 = sumKnown st input := by
  unfold getCladeCounts at h
  cases hmain : cladeCountsMain st fuel input with
  | none => rw [hmain] at h; exact absurd h (by simp)
  | some mid =>
    rw [hmain] at h
    simp only [Option.some_bind] at h
    unfold cladeCountsMain at hmain
    obtain ⟨hsum, hclade⟩ := cladeFold_spec input hmain
      (fun p _ => rfl) hnodup hroot hunk
    obtain ⟨hsum2, hclade2⟩ := cladeChildren_pres h
    constructor
    · rw [hsum2, hsum]
      simp [sumTax]
    · rw [hclade2 1, hclade]
      simp [lookupClade]

/-- C7 witness: the theorem applied to a concrete store and input. -/
theorem claim_C7_witness :
    sumTax ((getCladeCounts taxTree.store 10 [(4, 5), (3, 2)]).getD []) =
        sumInput [(4, 5), (3, 2)] ∧
      lookupClade ((getCladeCounts taxTree.store 10 [(4, 5), (3, 2)]).getD []) 1 =
        sumKnown taxTree.store [(4, 5), (3, 2)] :=
  @claim_C7 taxTree.store 10 [(4, 5), (3, 2)]
    ((getCladeCounts taxTree.store 10 [(4, 5), (3, 2)]).getD [])
    (by decide) (by decide) (by decide) (by decide)

theorem mem_mapUpsert (k : Int) (upd : TaxAcc → TaxAcc) (dflt : TaxAcc) :
    ∀ (m : List (Int × TaxAcc)) (x : Int × TaxAcc), x ∈ mapUpsert m k upd dflt →
      x.1 = k ∨ x ∈ m := by
  intro m
  induction m with
  | nil =>
    intro x hx
    simp only [mapUpsert] at hx
    rcases List.mem_singleton.mp hx with rfl
    exact Or.inl rfl
  | cons a rest ih =>
    intro x hx
    rcases a with ⟨k', v⟩
    simp only [mapUpsert] at hx
    by_cases h1 : k < k'
    · rw [if_pos h1] at hx
      rcases List.mem_cons.mp hx with rfl | hx2
      · exact Or.inl rfl
      · exact Or.inr hx2
    · rw [if_neg h1] at hx
      by_cases h2 : k = k'
      · rw [if_pos h2] at hx
        rcases List.mem_cons.mp hx with rfl | hx2
        · exact Or.inl h2.symm
        · exact Or.inr (List.mem_cons_of_mem _ hx2)
      · rw [if_neg h2] at hx
        rcases List.mem_cons.mp hx with rfl | hx2
        · exact Or.inr (List.mem_cons_self _ _)
        · rcases ih x hx2 with hk | hm
          · exact Or.inl hk
          · exact Or.inr (List.mem_cons_of_mem _ hm)

/-- Keys inserted by the aggregation ancestor walk are nonzero (the walk
moves up through `taxonNode(·, false)`, which faults on id 0 at the next
dereference). -/
theorem wmlWalk_keys {st : Store} {w : ℚ} :
    ∀ {f : Nat} {curr : Int} {node : TaxonNode} {m m' : List (Int × TaxAcc)},
      wmlWalk st w f curr node m = some m' →
      ∀ x ∈ m', x ∈ m ∨ x.1 ≠ 0 := by
  intro f
  induction f with
  | zero => intro curr node m m' h; exact absurd h (by simp [wmlWalk])
  | succ f ih =>
    intro curr node m m' h x hx
    unfold wmlWalk at h
    by_cases hself : node.parentTaxId = curr
    · rw [if_pos hself] at h
      cases Option.some_inj.mp h
      exact Or.inl hx
    · rw [if_neg hself] at h
      cases hn : taxonNodeStrict st node.parentTaxId false with
      | none => rw [hn] at h; exact absurd h (by simp)
      | some n' =>
        rw [hn] at h
        simp only [Option.some_bind] at h
        have hp0 : node.parentTaxId ≠ 0 := by
          intro hc
          rw [hc] at hn
          simp [taxonNodeStrict, taxonNodeOpt] at hn
        rcases ih h x hx with hx2 | hxne
        · rcases mem_mapUpsert _ _ _ _ x hx2 with hk | hm
          · exact Or.inr (hk ▸ hp0)
          · exact Or.inl hm
        · exact Or.inr hxne

/-- All keys of the aggregation map are nonzero. -/
theorem wmlAggregate_keys {st : Store} {fuel : Nat} {hits : List (Int × ℚ)}
    {agg : WmlAgg} (h : wmlAggregate st fuel hits = some agg) :
    ∀ x ∈ agg.counts, x.1 ≠ 0 := by
  unfold wmlAggregate at h
  suffices hgen : ∀ (l : List (Int × ℚ)) (a : WmlAgg) {a' : WmlAgg},
      l.foldlM (fun a p =>
        if p.1 = 0 then some { a with unassignedSeqs := a.unassignedSeqs + 1 }
        else
          (taxonNodeStrict st p.1 false).bind (fun node =>
            (wmlWalk st p.2 fuel p.1 node
                (mapUpsert a.counts p.1 (fun tn => tn.update p.2 0) ⟨p.2, true, 0⟩)).map
              (fun m2 =>
                { counts := m2
                  assignedSeqs := a.assignedSeqs + 1
                  unassignedSeqs := a.unassignedSeqs
                  totalWeight := a.totalWeight + p.2 }))) a = some a' →
      (∀ x ∈ a.counts, x.1 ≠ 0) →
      ∀ x ∈ a'.counts, x.1 ≠ 0 by
    exact hgen hits ⟨[], 0, 0, 0⟩ h (by simp)
  intro l
  induction l with
  | nil =>
    intro a a' h' ha
    cases Option.some_inj.mp h'
    exact ha
  | cons p rest ih =>
    intro a a' h' ha
    rw [List.foldlM_cons] at h'
    by_cases hp0 : p.1 = 0
    · rw [if_pos hp0] at h'
      exact ih _ h' ha
    · rw [if_neg hp0] at h'
      cases hn : taxonNodeStrict st p.1 false with
      | none => rw [hn] at h'; exact absurd h' (by simp)
      | some node =>
        rw [hn] at h'
        simp only [Option.some_bind] at h'
        cases hw : wmlWalk st p.2 fuel p.1 node
            (mapUpsert a.counts p.1 (fun tn => tn.update p.2 0) ⟨p.2, true, 0⟩) with
        | none => rw [hw] at h'; exact absurd h' (by simp)
        | some m2 =>
          rw [hw] at h'
          simp only [Option.map_some'] at h'
          refine ih _ h' ?_
          intro x hx
          rcases wmlWalk_keys hw x hx with hx2 | hxne
          · rcases mem_mapUpsert _ _ _ _ x hx2 with hk | hm
            · exact hk ▸ hp0
            · exact ha x hm
          · exact hxne

/-- The selection rank walk returns either a positive configured rank index
or `ROOT_RANK`; in both cases the result is positive and at most
`intMax`. -/
theorem wmlMinRankWalk_bounds {st : Store} {ranks : List (String × Int)} :
    ∀ {f : Nat} {curr : Int} {node : TaxonNode} {r : Int},
      wmlMinRankWalk st ranks f curr node = some r → 0 < r ∧ r ≤ intMax := by
  intro f
  induction f with
  | zero => intro curr node r h; exact absurd h (by simp [wmlMinRankWalk])
  | succ f ih =>
    intro curr node r h
    unfold wmlMinRankWalk at h
    by_cases hself : node.parentTaxId = curr
    · rw [if_pos hself] at h
      cases Option.some_inj.mp h
      constructor
      · unfold intMax; omega
      · exact le_rfl
    · rw [if_neg hself] at h
      by_cases hr : 0 < findRankIndex ranks node.rank ∧ findRankIndex ranks node.rank < intMax
      · rw [if_pos hr] at h
        cases Option.some_inj.mp h
        exact ⟨hr.1, le_of_lt hr.2⟩
      · rw [if_neg hr] at h
        cases hn : taxonNodeStrict st node.parentTaxId false with
        | none => rw [hn] at h; exact absurd h (by simp)
        | some n' =>
          rw [hn] at h
          exact ih h

theorem wmlCandRank_bounds {st : Store} {ranks : List (String × Int)} {fuel : Nat}
    {t : Int} {r : Int} (h : wmlCandRank st ranks fuel t = some r) :
    0 < r ∧ r ≤ intMax := by
  unfold wmlCandRank at h
  cases hn : taxonNodeStrict st t false with
  | none => rw [hn] at h; exact absurd h (by simp)
  | some node =>
    rw [hn] at h
    exact wmlMinRankWalk_bounds h

/-- Invariants of the selection loop: the final accumulator either is the
initial one or records a qualifying entry; it lexicographically dominates
every processed qualifier (rank first, then percent) and never regresses. -/
theorem wmlSelect_spec {st : Store} {ranks : List (String × Int)} {fuel : Nat}
    {total cutoff : ℚ} :
    ∀ (l : List (Int × TaxAcc)) (acc acc' : Int × Int × ℚ),
      wmlSelect st ranks fuel total cutoff l acc = some acc' →
      (acc' = acc ∨ ∃ x ∈ l, x.2.isCandidate = true ∧ cutoff ≤ x.2.weight / total ∧
        acc'.1 = x.1 ∧ wmlCandRank st ranks fuel x.1 = some acc'.2.1 ∧
        acc'.2.2 = x.2.weight / total) ∧
      (∀ x ∈ l, x.2.isCandidate = true → cutoff ≤ x.2.weight / total →
        ∃ r, wmlCandRank st ranks fuel x.1 = some r ∧
          (acc'.2.1 < r ∨ (acc'.2.1 = r ∧ x.2.weight / total ≤ acc'.2.2))) ∧
      (acc'.2.1 < acc.2.1 ∨ (acc'.2.1 = acc.2.1 ∧ acc.2.2 ≤ acc'.2.2)) := by
  intro l
  induction l with
  | nil =>
    intro acc acc' h
    cases Option.some_inj.mp h
    exact ⟨Or.inl rfl, by simp, Or.inr ⟨rfl, le_rfl⟩⟩
  | cons x rest ih =>
    intro acc acc' h
    rcases x with ⟨t, tn⟩
    rw [wmlSelect] at h
    by_cases hcand : tn.isCandidate = false
    · rw [if_pos hcand] at h
      obtain ⟨hA, hB, hC⟩ := ih _ _ h
      refine ⟨?_, ?_, hC⟩
      · rcases hA with h1 | ⟨y, hy, hprops⟩
        · exact Or.inl h1
        · exact Or.inr ⟨y, List.mem_cons_of_mem _ hy, hprops⟩
      · intro y hy hyc hyq
        rcases List.mem_cons.mp hy with rfl | hyr
        · rw [hcand] at hyc; exact absurd hyc (by simp)
        · exact hB y hyr hyc hyq
    · rw [if_neg hcand] at h
      have hct : tn.isCandidate = true := by
        revert hcand; cases tn.isCandidate <;> simp
      by_cases hq : cutoff ≤ tn.weight / total
      · rw [if_pos hq] at h
        cases hcr : wmlCandRank st ranks fuel t with
        | none => rw [hcr] at h; exact absurd h (by simp)
        | some cmr =>
          rw [hcr] at h
          simp only [Option.some_bind] at h
          by_cases hrepl : cmr < acc.2.1 ∨ (cmr = acc.2.1 ∧ acc.2.2 < tn.weight / total)
          · rw [if_pos hrepl] at h
            obtain ⟨hA, hB, hC⟩ := ih _ _ h
            have hCnew : acc'.2.1 < cmr ∨ (acc'.2.1 = cmr ∧ tn.weight / total ≤ acc'.2.2) := hC
            refine ⟨?_, ?_, ?_⟩
            · rcases hA with h1 | ⟨y, hy, hprops⟩
              · refine Or.inr ⟨(t, tn), List.mem_cons_self _ _, hct, hq, ?_, ?_, ?_⟩
                · rw [h1]
                · rw [h1]; exact hcr
                · rw [h1]
              · exact Or.inr ⟨y, List.mem_cons_of_mem _ hy, hprops⟩
            · intro y hy hyc hyq
              rcases List.mem_cons.mp hy with rfl | hyr
              · exact ⟨cmr, hcr, hCnew⟩
              · exact hB y hyr hyc hyq
            · rcases hCnew with h1 | ⟨h1, h2⟩
              · rcases hrepl with h3 | ⟨h3, h4⟩
                · exact Or.inl (lt_trans h1 h3)
                · exact Or.inl (by rw [h3] at h1; exact h1)
              · rcases hrepl with h3 | ⟨h3, h4⟩
                · exact Or.inl (by rw [h1]; exact h3)
                · exact Or.inr ⟨h1.trans h3, le_trans (le_of_lt h4) h2⟩
          · rw [if_neg hrepl] at h
            obtain ⟨hA, hB, hC⟩ := ih _ _ h
            have hnotlt : ¬ cmr < acc.2.1 := fun hc => hrepl (Or.inl hc)
            have himpl : cmr = acc.2.1 → tn.weight / total ≤ acc.2.2 := by
              intro he
              by_contra hc
              exact hrepl (Or.inr ⟨he, not_le.mp hc⟩)
            refine ⟨?_, ?_, hC⟩
            · rcases hA with h1 | ⟨y, hy, hprops⟩
              · exact Or.inl h1
              · exact Or.inr ⟨y, List.mem_cons_of_mem _ hy, hprops⟩
            · intro y hy hyc hyq
              rcases List.mem_cons.mp hy with rfl | hyr
              · refine ⟨cmr, hcr, ?_⟩
                have hmr_le : acc.2.1 ≤ cmr := not_lt.mp hnotlt
                rcases hC with hlt | ⟨heq, hle⟩
                · exact Or.inl (lt_of_lt_of_le hlt hmr_le)
                · rcases lt_or_eq_of_le hmr_le with h5 | h5
                  · exact Or.inl (by rw [heq]; exact h5)
                  · exact Or.inr ⟨heq.trans h5, le_trans (himpl h5.symm) hle⟩
              · exact hB y hyr hyc hyq
      · rw [if_neg hq] at h
        obtain ⟨hA, hB, hC⟩ := ih _ _ h
        refine ⟨?_, ?_, hC⟩
        · rcases hA with h1 | ⟨y, hy, hprops⟩
          · exact Or.inl h1
          · exact Or.inr ⟨y, List.mem_cons_of_mem _ hy, hprops⟩
        · intro y hy hyc hyq
          rcases List.mem_cons.mp hy with rfl | hyr
          · exact absurd hyq hq
          · exact hB y hyr hyc hyq

/-- A nonzero selection never becomes zero. -/
theorem wmlSelect_nonzero {st : Store} {ranks : List (String × Int)} {fuel : Nat}
    {total cutoff : ℚ} :
    ∀ (l : List (Int × TaxAcc)) (acc acc' : Int × Int × ℚ),
      wmlSelect st ranks fuel total cutoff l acc = some acc' →
      acc.1 ≠ 0 → (∀ x ∈ l, x.1 ≠ 0) → acc'.1 ≠ 0 := by
  intro l
  induction l with
  | nil =>
    intro acc acc' h hacc _
    cases Option.some_inj.mp h
    exact hacc
  | cons x rest ih =>
    intro acc acc' h hacc hkeys
    rcases x with ⟨t, tn⟩
    rw [wmlSelect] at h
    by_cases hcand : tn.isCandidate = false
    · rw [if_pos hcand] at h
      exact ih _ _ h hacc (fun y hy => hkeys y (List.mem_cons_of_mem _ hy))
    · rw [if_neg hcand] at h
      by_cases hq : cutoff ≤ tn.weight / total
      · rw [if_pos hq] at h
        cases hcr : wmlCandRank st ranks fuel t with
        | none => rw [hcr] at h; exact absurd h (by simp)
        | some cmr =>
          rw [hcr] at h
          simp only [Option.some_bind] at h
          by_cases hrepl : cmr < acc.2.1 ∨ (cmr = acc.2.1 ∧ acc.2.2 < tn.weight / total)
          · rw [if_pos hrepl] at h
            exact ih _ _ h (hkeys (t, tn) (List.mem_cons_self _ _))
              (fun y hy => hkeys y (List.mem_cons_of_mem _ hy))
          · rw [if_neg hrepl] at h
            exact ih _ _ h hacc (fun y hy => hkeys y (List.mem_cons_of_mem _ hy))
      · rw [if_neg hq] at h
        exact ih _ _ h hacc (fun y hy => hkeys y (List.mem_cons_of_mem _ hy))

/-- From the initial accumulator, a qualifying candidate forces a nonzero
selection (for a positive cutoff). -/
theorem wmlSelect_virgin {st : Store} {ranks : List (String × Int)} {fuel : Nat}
    {total cutoff : ℚ} (hcut : 0 < cutoff) :
    ∀ (l : List (Int × TaxAcc)) (acc' : Int × Int × ℚ),
      wmlSelect st ranks fuel total cutoff l ((0 : Int), intMax, (0 : ℚ)) = some acc' →
      (∀ x ∈ l, x.1 ≠ 0) →
      (∃ x ∈ l, x.2.isCandidate = true ∧ cutoff ≤ x.2.weight / total) →
      acc'.1 ≠ 0 := by
  intro l
  induction l with
  | nil =>
    intro acc' _ _ hex
    rcases hex with ⟨x, hx, -⟩
    exact absurd hx (by simp)
  | cons x rest ih =>
    intro acc' h hkeys hex
    rcases x with ⟨t, tn⟩
    rw [wmlSelect] at h
    by_cases hcand : tn.isCandidate = false
    · rw [if_pos hcand] at h
      rcases hex with ⟨y, hy, hyc, hyq⟩
      rcases List.mem_cons.mp hy with rfl | hyr
      · rw [hcand] at hyc; exact absurd hyc (by simp)
      · exact ih _ h (fun z hz => hkeys z (List.mem_cons_of_mem _ hz)) ⟨y, hyr, hyc, hyq⟩
    · rw [if_neg hcand] at h
      by_cases hq : cutoff ≤ tn.weight / total
      · rw [if_pos hq] at h
        cases hcr : wmlCandRank st ranks fuel t with
        | none => rw [hcr] at h; exact absurd h (by simp)
        | some cmr =>
          rw [hcr] at h
          simp only [Option.some_bind] at h
          have hbnd := wmlCandRank_bounds hcr
          have hrepl : cmr < ((0 : Int), intMax, (0 : ℚ)).2.1 ∨
              (cmr = ((0 : Int), intMax, (0 : ℚ)).2.1 ∧
                ((0 : Int), intMax, (0 : ℚ)).2.2 < tn.weight / total) := by
            rcases lt_or_eq_of_le hbnd.2 with h1 | h1
            · exact Or.inl h1
            · exact Or.inr ⟨h1, lt_of_lt_of_le hcut hq⟩
          rw [if_pos hrepl] at h
          exact wmlSelect_nonzero rest _ _ h
            (hkeys (t, tn) (List.mem_cons_self _ _))
            (fun z hz => hkeys z (List.mem_cons_of_mem _ hz))
      · rw [if_neg hq] at h
        rcases hex with ⟨y, hy, hyc, hyq⟩
        rcases List.mem_cons.mp hy with rfl | hyr
        · exact absurd hyq hq
        · exact ih _ h (fun z hz => hkeys z (List.mem_cons_of_mem _ hz)) ⟨y, hyr, hyc, hyq⟩

/-- Inversion of `weightedMajorityLCA`: the reported taxon and percentage
are those of the selection loop run on the aggregation result. -/
theorem wml_inversion {st : Store} {ranks : List (String × Int)} {fuel : Nat}
    {hits : List (Int × ℚ)} {cutoff : ℚ} {res : WeightedTaxResult}
    (h : weightedMajorityLCA st ranks fuel hits cutoff = some res) :
    ∃ agg sel, wmlAggregate st fuel hits = some agg ∧
      wmlSelect st ranks fuel agg.totalWeight cutoff agg.counts ((0 : Int), intMax, (0 : ℚ)) =
        some sel ∧
      res.taxon = sel.1 ∧ res.selectedPercent = sel.2.2 := by
  unfold weightedMajorityLCA at h
  cases hagg : wmlAggregate st fuel hits with
  | none => rw [hagg] at h; exact absurd h (by simp)
  | some agg =>
    rw [hagg] at h
    simp only [Option.some_bind] at h
    cases hsel : wmlSelect st ranks fuel agg.totalWeight cutoff agg.counts
        ((0 : Int), intMax, (0 : ℚ)) with
    | none => rw [hsel] at h; exact absurd h (by simp)
    | some sel =>
      rw [hsel] at h
      simp only [Option.some_bind] at h
      by_cases h1 : sel.1 = 1
      · rw [if_pos h1] at h
        cases Option.some_inj.mp h
        exact ⟨agg, sel, rfl, hsel, rfl, rfl⟩
      · rw [if_neg h1] at h
        by_cases h0 : sel.1 = 0
        · rw [if_pos h0] at h
          cases Option.some_inj.mp h
          exact ⟨agg, sel, rfl, hsel, rfl, rfl⟩
        · rw [if_neg h0] at h
          cases hagr : wmlAgreeCount st fuel hits sel.1 with
          | none => rw [hagr] at h; exact absurd h (by simp)
          | some agr =>
            rw [hagr] at h
            simp only [Option.map_some'] at h
            have hres : res = ⟨sel.1, agg.assignedSeqs, agg.unassignedSeqs, agr, sel.2.2⟩ :=
              (Option.some_inj.mp h).symm
            subst hres
            exact ⟨agg, sel, rfl, hsel, rfl, rfl⟩

/-- Shared optimality result for the selection loop of
`weightedMajorityLCA`. -/
theorem wml_optimal {st : Store} {ranks : List (String × Int)} {fuel : Nat}
    {hits : List (Int × ℚ)} {cutoff : ℚ} {res : WeightedTaxResult} {agg : WmlAgg}
    (h : weightedMajorityLCA st ranks fuel hits cutoff = some res)
    (hagg : wmlAggregate st fuel hits = some agg)
    (hcut : 0 < cutoff) :
    wmlSelectionOptimal st ranks fuel agg cutoff res := by
  obtain ⟨agg', sel, hagg', hsel, htax, hpct⟩ := wml_inversion h
  cases Option.some_inj.mp (hagg.symm.trans hagg')
  have hkeys := wmlAggregate_keys hagg
  obtain ⟨hA, hB, hC⟩ := wmlSelect_spec agg.counts _ sel hsel
  unfold wmlSelectionOptimal
  rw [htax, hpct]
  constructor
  · constructor
    · intro hno
      rcases hA with h1 | ⟨x, hx, hxc, hxq, -⟩
      · rw [h1]
      · exact absurd hxq (not_le.mpr (hno x hx hxc))
    · intro h0 x hx hxc
      by_contra hc
      push_neg at hc
      exact wmlSelect_virgin hcut agg.counts sel hsel
        (fun y hy => hkeys y hy) ⟨x, hx, hxc, hc⟩ h0
  · intro hne
    rcases hA with h1 | ⟨x, hx, hxc, hxq, hx1, hxr, hxp⟩
    · rw [h1] at hne
      exact absurd rfl hne
    · refine ⟨x, hx, hx1.symm, hxc, hxq, hxp, sel.2.1, ?_, ?_⟩
      · rw [hx1]
        exact hxr
      · intro y hy hyc hyq
        exact hB y hy hyc hyq

/-- C1, amended.  Among the aggregation map's candidates whose weight share
meets the (positive) cutoff, the selected taxon is the one minimising the
break-walk rank `wmlCandRank` — the first positively-ranked entry on the
upward walk starting at the candidate's own node — with ties broken by a
weight percentage no smaller than any tied qualifier's; the unassigned
sentinel 0 is returned exactly when no candidate qualifies.  (The lineage
*minimum* rank of the claim differs from this break-walk rank; see the
counterexample.) -/
theorem claim_C1 {st : Store} {ranks : List (String × Int)} {fuel : Nat}
    {hits : List (Int × ℚ)} {cutoff : ℚ} {res : WeightedTaxResult} {agg : WmlAgg}
    (h : weightedMajorityLCA st ranks fuel hits cutoff = some res)
    (hagg : wmlAggregate st fuel hits = some agg)
    (hcut : 0 < cutoff) :
    wmlSelectionOptimal st ranks fuel agg cutoff res :=
  wml_optimal h hagg hcut

/-- C1 witness: the theorem applied to a concrete store, hits and cutoff. -/
theorem claim_C1_witness :
    wmlSelectionOptimal stRank NcbiRanksModel 10
      ((wmlAggregate stRank 10 [(3, 1), (4, 1)]).getD ⟨[], 0, 0, 0⟩) (1 / 2)
      ((weightedMajorityLCA stRank NcbiRanksModel 10 [(3, 1), (4, 1)] (1 / 2)).getD
        ⟨0, 0, 0, 0, 0⟩) :=
  @claim_C1 stRank NcbiRanksModel 10 [(3, 1), (4, 1)] (1 / 2)
    ((weightedMajorityLCA stRank NcbiRanksModel 10 [(3, 1), (4, 1)] (1 / 2)).getD
      ⟨0, 0, 0, 0, 0⟩)
    ((wmlAggregate stRank 10 [(3, 1), (4, 1)]).getD ⟨[], 0, 0, 0⟩)
    (by with_unfolding_all decide) (by with_unfolding_all decide)
    (by with_unfolding_all decide)

/-- C1 counterexample: taxon 3 is a qualifying candidate (weight 1 of 2 at
cutoff 1/2) whose lineage minimum canonical rank index is 2, strictly lower
(more specific) than selected taxon 4's lineage minimum 4 — yet the code
selects 4, because its rank walk stops at 3's own rank (5, `order`) before
reaching the lower-indexed ancestor. -/
theorem claim_C1_cex :
    (weightedMajorityLCA stRank NcbiRanksModel 10 [(3, 1), (4, 1)] (1 / 2)).map
        (fun r => r.taxon) = some 4 ∧
      (wmlAggregate stRank 10 [(3, 1), (4, 1)]).map
        (fun agg => (wmlIsCand agg.counts 3, wmlWeight agg.counts 3, agg.totalWeight)) =
        some (true, 1, 2) ∧
      ((1 : ℚ) / 2 ≤ 1 / 2) ∧
      lineageMinRank stRank NcbiRanksModel 10 3 = some 2 ∧
      lineageMinRank stRank NcbiRanksModel 10 4 = some 4 ∧
      ((2 : Int) < 4) := by
  refine ⟨by with_unfolding_all decide, by with_unfolding_all decide,
    by with_unfolding_all decide, by decide, by decide, by decide⟩

/-- C8, amended.  Raising the cutoff never selects a taxon whose break-walk
rank (`wmlCandRank`, the rank at which the selection walk stops) is lower:
if the lower cutoff selects nothing, neither does the higher one, and when
both select, the higher cutoff's selection has a break-walk rank at least
as large.  (Measured by the lineage *minimum* rank of the claim, raising
the cutoff can select a strictly more specific taxon; see the
counterexample.) -/
theorem claim_C8 {st : Store} {ranks : List (String × Int)} {fuel : Nat}
    {hits : List (Int × ℚ)} {c1 c2 : ℚ} {res1 res2 : WeightedTaxResult}
    (h1 : weightedMajorityLCA st ranks fuel hits c1 = some res1)
    (h2 : weightedMajorityLCA st ranks fuel hits c2 = some res2)
    (hc : c1 ≤ c2) (hc1 : 0 < c1) :
    (res1.taxon = 0 → res2.taxon = 0) ∧
      (res2.taxon ≠ 0 → res1.taxon ≠ 0 ∧
        ∀ r1 r2, wmlCandRank st ranks fuel res1.taxon = some r1 →
          wmlCandRank st ranks fuel res2.taxon = some r2 → r1 ≤ r2) := by
  obtain ⟨agg, sel1, hagg, -, -, -⟩ := wml_inversion h1
  have hopt1 := wml_optimal h1 hagg hc1
  have hopt2 := wml_optimal h2 hagg (lt_of_lt_of_le hc1 hc)
  constructor
  · intro h0
    have hno1 := hopt1.1.mpr h0
    refine hopt2.1.mp ?_
    intro x hx hxc
    exact lt_of_lt_of_le (hno1 x hx hxc) hc
  · intro hne2
    obtain ⟨x, hx, hxid, hxc, hxq, -, rsel2, hrsel2, -⟩ := hopt2.2 hne2
    have hxq1 : c1 ≤ x.2.weight / agg.totalWeight := le_trans hc hxq
    have hne1 : res1.taxon ≠ 0 := by
      intro h0
      exact absurd hxq1 (not_le.mpr (hopt1.1.mpr h0 x hx hxc))
    refine ⟨hne1, ?_⟩
    intro r1 r2 hr1 hr2
    obtain ⟨x1, hx1, hx1id, -, -, -, rsel1, hrsel1, hmin⟩ := hopt1.2 hne1
    obtain ⟨ry, hry, hor⟩ := hmin x hx hxc hxq1
    have hr1e : r1 = rsel1 := Option.some_inj.mp (hr1.symm.trans hrsel1)
    have hr2e : r2 = ry := by
      rw [hxid] at hry
      exact Option.some_inj.mp (hr2.symm.trans hry)
    rw [hr1e, hr2e]
    rcases hor with h3 | ⟨h3, -⟩
    · exact le_of_lt h3
    · exact le_of_eq h3

/-- C8 witness: the theorem applied to a concrete store, hits and two
cutoffs. -/
theorem claim_C8_witness :
    (((weightedMajorityLCA stMono NcbiRanksModel 10 [(4, 3), (5, 1)] (1 / 5)).getD
          ⟨0, 0, 0, 0, 0⟩).taxon = 0 →
        ((weightedMajorityLCA stMono NcbiRanksModel 10 [(4, 3), (5, 1)] (1 / 2)).getD
          ⟨0, 0, 0, 0, 0⟩).taxon = 0) ∧
      (((weightedMajorityLCA stMono NcbiRanksModel 10 [(4, 3), (5, 1)] (1 / 2)).getD
          ⟨0, 0, 0, 0, 0⟩).taxon ≠ 0 →
        ((weightedMajorityLCA stMono NcbiRanksModel 10 [(4, 3), (5, 1)] (1 / 5)).getD
          ⟨0, 0, 0, 0, 0⟩).taxon ≠ 0 ∧
        ∀ r1 r2,
          wmlCandRank stMono NcbiRanksModel 10
            ((weightedMajorityLCA stMono NcbiRanksModel 10 [(4, 3), (5, 1)] (1 / 5)).getD
              ⟨0, 0, 0, 0, 0⟩).taxon = some r1 →
          wmlCandRank stMono NcbiRanksModel 10
            ((weightedMajorityLCA stMono NcbiRanksModel 10 [(4, 3), (5, 1)] (1 / 2)).getD
              ⟨0, 0, 0, 0, 0⟩).taxon = some r2 → r1 ≤ r2) :=
  @claim_C8 stMono NcbiRanksModel 10 [(4, 3), (5, 1)] (1 / 5) (1 / 2)
    ((weightedMajorityLCA stMono NcbiRanksModel 10 [(4, 3), (5, 1)] (1 / 5)).getD
      ⟨0, 0, 0, 0, 0⟩)
    ((weightedMajorityLCA stMono NcbiRanksModel 10 [(4, 3), (5, 1)] (1 / 2)).getD
      ⟨0, 0, 0, 0, 0⟩)
    (by with_unfolding_all decide) (by with_unfolding_all decide)
    (by with_unfolding_all decide) (by with_unfolding_all decide)

/-- C8 counterexample: with hits on 4 (weight 3) and 5 (weight 1), cutoff
1/5 selects taxon 5 (lineage minimum rank 2) while the larger cutoff 1/2
selects taxon 4, whose lineage minimum rank 1 is strictly lower — raising
the cutoff produced a more specific selection in the claim's sense. -/
theorem claim_C8_cex :
    (weightedMajorityLCA stMono NcbiRanksModel 10 [(4, 3), (5, 1)] (1 / 5)).map
        (fun r => r.taxon) = some 5 ∧
      (weightedMajorityLCA stMono NcbiRanksModel 10 [(4, 3), (5, 1)] (1 / 2)).map
        (fun r => r.taxon) = some 4 ∧
      lineageMinRank stMono NcbiRanksModel 10 4 = some 1 ∧
      lineageMinRank stMono NcbiRanksModel 10 5 = some 2 ∧
      ((1 : Int) < 2) ∧ ((1 : ℚ) / 5 ≤ 1 / 2) := by
  refine ⟨by with_unfolding_all decide, by with_unfolding_all decide,
    by decide, by decide, by decide, by with_unfolding_all decide⟩


/-! ### Euler-traversal structure, C5 and C6 -/

theorem mem_enum_get? {α : Type} {l : List α} {i : Nat} {x : α} :
    (i, x) ∈ l.enum ↔ l.get? i = some x := by
  rw [List.mem_enum_iff_getElem?, List.get?_eq_getElem?]

theorem get?_append_left {α : Type} {l : List α} {n : Nat} {x : α}
    (h : l.get? n = some x) (l' : List α) : (l ++ l').get? n = some x := by
  rw [List.get?_eq_getElem?] at h ⊢
  rw [List.getElem?_append, if_pos (List.getElem?_eq_some.mp h).1]
  exact h

theorem get?_append_right {α : Type} (l l' : List α) (n : Nat) :
    (l ++ l').get? (l.length + n) = l'.get? n := by
  rw [List.get?_eq_getElem?, List.get?_eq_getElem?, List.getElem?_append,
    if_neg (by omega)]
  congr 1
  omega

theorem get?_dropLast {α : Type} {l : List α} {n : Nat} (h : n < l.length - 1) :
    l.dropLast.get? n = l.get? n := by
  rw [List.get?_eq_getElem?, List.get?_eq_getElem?, List.getElem?_dropLast,
    if_pos (by simpa using h)]

theorem mem_dropLast_or_last {α : Type} {l : List α} {x : α} (hx : x ∈ l) :
    x ∈ l.dropLast ∨ l.getLast? = some x := by
  induction l with
  | nil => cases hx
  | cons a t ih =>
    cases t with
    | nil =>
      simp only [List.mem_singleton] at hx
      simp [hx]
    | cons b t2 =>
      rcases hx with _ | hx2
      · left
        simp [List.dropLast_cons_of_ne_nil]
      · rcases ih (by assumption) with h | h
        · left
          rw [List.dropLast_cons_of_ne_nil (by simp)]
          exact List.mem_cons_of_mem _ h
        · right
          rw [List.getLast?_cons_cons]
          exact h

theorem rootDist_mono {st : Store} :
    ∀ {g g' : Nat} {x : Int} {d : Nat}, g ≤ g' →
      rootDist st g x = some d → rootDist st g' x = some d := by
  intro g
  induction g with
  | zero => intro g' x d _ h; exact absurd h (by simp [rootDist])
  | succ g ih =>
    intro g' x d hle h
    cases g' with
    | zero => omega
    | succ g2 =>
      rw [rootDist] at h ⊢
      by_cases h1 : x = 1
      · rw [if_pos h1] at h ⊢; exact h
      · rw [if_neg h1] at h ⊢
        cases hr : ((nodeIdOpt st x).bind fun i => st.taxonNodes.get? i) with
        | none => rw [hr] at h; exact absurd h (by simp)
        | some r =>
          rw [hr] at h
          simp only [Option.bind_eq_bind, Option.some_bind] at h ⊢
          cases hd : rootDist st g r.parentTaxId with
          | none => rw [hd] at h; exact absurd h (by simp)
          | some d2 =>
            rw [hd] at h
            rw [ih (by omega) hd]
            exact h

theorem rootDist_det {st : Store} {g g' : Nat} {x : Int} {d d' : Nat}
    (h : rootDist st g x = some d) (h' : rootDist st g' x = some d') : d = d' := by
  have h1 := rootDist_mono (Nat.le_max_left g g') h
  have h2 := rootDist_mono (Nat.le_max_right g g') h'
  exact Option.some_inj.mp (h1.symm.trans h2)

theorem rootDist_zero {st : Store} {g : Nat} {x : Int}
    (h : rootDist st g x = some 0) : x = 1 := by
  cases g with
  | zero => exact absurd h (by simp [rootDist])
  | succ g =>
    rw [rootDist] at h
    by_cases h1 : x = 1
    · exact h1
    · rw [if_neg h1] at h
      cases hr : ((nodeIdOpt st x).bind fun i => st.taxonNodes.get? i) with
      | none => rw [hr] at h; exact absurd h (by simp)
      | some r =>
        rw [hr] at h
        simp only [Option.bind_eq_bind, Option.some_bind] at h
        cases hd : rootDist st g r.parentTaxId with
        | none => rw [hd] at h; exact absurd h (by simp)
        | some d2 =>
          rw [hd] at h
          simp at h

theorem rootDist_one {st : Store} {g : Nat} : rootDist st (g + 1) 1 = some 0 := by
  rw [rootDist]
  simp

theorem ancT_snoc {st : Store} :
    ∀ {k : Nat} {x y z : Int}, ancT st k x = some y → parentOfTax st y = some z →
      ancT st (k + 1) x = some z := by
  intro k
  induction k with
  | zero =>
    intro x y z hx hp
    have hxy : x = y := Option.some_inj.mp hx
    subst hxy
    rw [ancT, hp]
    rfl
  | succ k ih =>
    intro x y z hx hp
    rw [ancT] at hx
    cases hw : parentOfTax st x with
    | none => rw [hw] at hx; exact absurd hx (by simp)
    | some w =>
      rw [hw] at hx
      simp only [Option.some_bind] at hx
      rw [ancT, hw]
      simp only [Option.some_bind]
      exact ih hx hp

theorem visPos_not_mem {vis : List (Int × Nat)} {x : Int}
    (h : ∀ q, (x, q) ∉ vis) : visPos vis x = 0 := by
  unfold visPos
  have hf : vis.find? (fun q => q.1 == x) = none := by
    rw [List.find?_eq_none]
    intro a ha
    rcases a with ⟨a1, a2⟩
    simp only [beq_iff_eq, decide_eq_true_eq]
    intro hc
    subst hc
    exact h a2 ha
  rw [hf]
  rfl

theorem visPos_append_new {vis : List (Int × Nat)} {x : Int} {p : Nat}
    (h : ∀ q, (x, q) ∉ vis) : visPos (vis ++ [(x, p)]) x = p := by
  unfold visPos
  rw [List.find?_append]
  have hf : vis.find? (fun q => q.1 == x) = none := by
    rw [List.find?_eq_none]
    intro a ha
    rcases a with ⟨a1, a2⟩
    simp only [beq_iff_eq, decide_eq_true_eq]
    intro hc
    subst hc
    exact h a2 ha
  rw [hf]
  simp [List.find?]

theorem visPos_append_other {vis : List (Int × Nat)} {x y : Int} {p : Nat}
    (h : y ≠ x) : visPos (vis ++ [(x, p)]) y = visPos vis y := by
  unfold visPos
  rw [List.find?_append]
  cases hf : vis.find? (fun q => q.1 == y) with
  | some a => simp
  | none =>
    have hxy : (x == y) = false := beq_eq_false_iff_ne.mpr (Ne.symm h)
    have h2 : ([(x, p)].find? (fun q => q.1 == y)) = none := by
      simp [List.find?, hxy]
    rw [h2]
    simp

theorem visPos_mem_nodup :
    ∀ {vis : List (Int × Nat)} {x : Int} {p : Nat},
      (x, p) ∈ vis → (vis.map Prod.fst).Nodup → visPos vis x = p := by
  intro vis
  induction vis with
  | nil => intro x p h; cases h
  | cons a rest ih =>
    intro x p h hnd
    rw [List.map_cons] at hnd
    have hnd2 := List.nodup_cons.mp hnd
    rcases List.mem_cons.mp h with h | h
    · subst h
      unfold visPos
      simp [List.find?]
    · have hax : a.1 ≠ x := by
        intro hc
        exact hnd2.1 (hc ▸ (List.mem_map.mpr ⟨(x, p), h, rfl⟩))
      unfold visPos
      rw [List.find?]
      have hbeq : (a.1 == x) = false := by simp [hax]
      rw [hbeq]
      exact ih h hnd2.2



theorem idsInvert_get? {st : Store} (hII : idsInvert st) {j : Nat} {r : TaxonNode}
    (h : st.taxonNodes.get? j = some r) : nodeIdOpt st r.taxId = some j :=
  hII (j, r) (mem_enum_get?.mpr h)

theorem idsInvert_inj {st : Store} (hII : idsInvert st) {i j : Nat}
    {r r' : TaxonNode} (hi : st.taxonNodes.get? i = some r)
    (hj : st.taxonNodes.get? j = some r') (he : r.taxId = r'.taxId) : i = j := by
  have h1 := idsInvert_get? hII hi
  have h2 := idsInvert_get? hII hj
  rw [he] at h1
  exact Option.some_inj.mp (h1.symm.trans h2)

theorem taxIds_nodup {st : Store} (hII : idsInvert st) :
    (st.taxonNodes.map (fun r => r.taxId)).Nodup := by
  rw [List.nodup_iff_injective_get]
  intro i j hij
  have hil : i.val < st.taxonNodes.length := by
    have := i.isLt; simpa using this
  have hjl : j.val < st.taxonNodes.length := by
    have := j.isLt; simpa using this
  have hi : (st.taxonNodes.map (fun r => r.taxId)).get i =
      (st.taxonNodes.get ⟨i.val, hil⟩).taxId := by
    simp [List.get_eq_getElem, List.getElem_map]
  have hj : (st.taxonNodes.map (fun r => r.taxId)).get j =
      (st.taxonNodes.get ⟨j.val, hjl⟩).taxId := by
    simp [List.get_eq_getElem, List.getElem_map]
  have heq : (st.taxonNodes.get ⟨i.val, hil⟩).taxId =
      (st.taxonNodes.get ⟨j.val, hjl⟩).taxId := by
    rw [← hi, ← hj, hij]
  have h1 : st.taxonNodes.get? i.val = some (st.taxonNodes.get ⟨i.val, hil⟩) := by
    rw [List.get?_eq_getElem?, List.getElem?_eq_getElem hil]; rfl
  have h2 : st.taxonNodes.get? j.val = some (st.taxonNodes.get ⟨j.val, hjl⟩) := by
    rw [List.get?_eq_getElem?, List.getElem?_eq_getElem hjl]; rfl
  exact Fin.ext (idsInvert_inj hII h1 h2 heq)

theorem buildChildren_fold {st : Store} :
    ∀ (l : List TaxonNode) (acc ch' : List (List Int)),
      l.foldlM
        (fun ch r =>
          if r.parentTaxId ≠ r.taxId then
            (nodeIdOpt st r.parentTaxId).map
              (fun pid => ch.set pid (ch.getD pid [] ++ [r.taxId]))
          else some ch) acc = some ch' →
      (∀ r ∈ l, r.parentTaxId ≠ r.taxId →
        ∀ ip, nodeIdOpt st r.parentTaxId = some ip → ip < acc.length) →
      ch'.length = acc.length ∧
        ∀ pid, ch'.getD pid [] = acc.getD pid [] ++ childrenOf st l pid := by
  intro l
  induction l with
  | nil =>
    intro acc ch' h hok
    simp only [List.foldlM_nil] at h
    cases Option.some_inj.mp h
    exact ⟨rfl, fun pid => by simp [childrenOf]⟩
  | cons r rest ih =>
    intro acc ch' h hok
    rw [List.foldlM_cons] at h
    by_cases hself : r.parentTaxId ≠ r.taxId
    · rw [if_pos hself] at h
      cases hpid : nodeIdOpt st r.parentTaxId with
      | none => rw [hpid] at h; exact absurd h (by simp)
      | some ip =>
        rw [hpid] at h
        simp only [Option.map_some', Option.some_bind] at h
        have hip : ip < acc.length := hok r (by simp) hself ip hpid
        obtain ⟨hlen, hch⟩ := ih _ ch' h (fun r' hr' hs' ip' hip' => by
          have := hok r' (List.mem_cons_of_mem _ hr') hs' ip' hip'
          simpa using this)
        refine ⟨by simpa using hlen, fun pid => ?_⟩
        rw [hch pid]
        by_cases hpp : pid = ip
        · subst hpp
          have hset : (acc.set pid (acc.getD pid [] ++ [r.taxId])).getD pid [] =
              acc.getD pid [] ++ [r.taxId] := by
            rw [List.getD_eq_getElem?_getD, List.getElem?_set_self hip]
            rfl
          have hcond : ((r.parentTaxId != r.taxId) &&
              (nodeIdOpt st r.parentTaxId == some pid)) = true := by
            simp [hself, hpid]
          have hco : childrenOf st (r :: rest) pid = r.taxId :: childrenOf st rest pid := by
            unfold childrenOf
            rw [List.filter_cons, if_pos hcond, List.map_cons]
          rw [hset, hco, List.append_assoc]
          rfl
        · have hset : (acc.set ip (acc.getD ip [] ++ [r.taxId])).getD pid [] =
              acc.getD pid [] := by
            rw [List.getD_eq_getElem?_getD, List.getElem?_set_ne (fun hc => hpp hc.symm),
              ← List.getD_eq_getElem?_getD]
          have hcond : ((r.parentTaxId != r.taxId) &&
              (nodeIdOpt st r.parentTaxId == some pid)) = false := by
            rw [Bool.and_eq_false_iff]
            right
            rw [hpid]
            simp only [beq_eq_false_iff_ne, ne_eq, Option.some_inj]
            exact fun he => hpp he.symm
          have hco : childrenOf st (r :: rest) pid = childrenOf st rest pid := by
            unfold childrenOf
            rw [List.filter_cons, if_neg (by simp [hcond])]
          rw [hset, hco]
    · rw [if_neg hself] at h
      have hne : r.parentTaxId = r.taxId := not_not.mp hself
      obtain ⟨hlen, hch⟩ := ih _ ch' h (fun r' hr' hs' ip' hip' =>
        hok r' (List.mem_cons_of_mem _ hr') hs' ip' hip')
      refine ⟨hlen, fun pid => ?_⟩
      rw [hch pid]
      have hco : childrenOf st (r :: rest) pid = childrenOf st rest pid := by
        unfold childrenOf
        rw [List.filter_cons, if_neg (by simp [hne])]
      rw [hco]

theorem buildChildren_chSpec {st : Store} {ch : List (List Int)}
    (hII : idsInvert st) (hPR : parentsResolve st)
    (h : buildChildren st = some ch) : ChSpec st ch := by
  unfold buildChildren at h
  have hok : ∀ r ∈ st.taxonNodes, r.parentTaxId ≠ r.taxId →
      ∀ ip, nodeIdOpt st r.parentTaxId = some ip →
        ip < (List.replicate st.taxonNodes.length ([] : List Int)).length := by
    intro r hr hs ip hip
    have hp := hPR r hr
    rw [hip] at hp
    simp only [Option.some_bind] at hp
    cases hg : st.taxonNodes.get? ip with
    | none => rw [hg] at hp; exact absurd hp (by simp)
    | some rp =>
      have hlt : ip < st.taxonNodes.length := by
        rw [List.get?_eq_getElem?] at hg
        exact (List.getElem?_eq_some.mp hg).1
      simpa using hlt
  obtain ⟨hlen, hch⟩ := buildChildren_fold st.taxonNodes _ ch h hok
  constructor
  · simpa using hlen
  · intro pid
    have hnil : (List.replicate st.taxonNodes.length ([] : List Int)).getD pid [] = [] := by
      by_cases hp : pid < st.taxonNodes.length <;>
        simp [List.getD_eq_getElem?_getD, List.getElem?_replicate, hp]
    have hpd : ch.getD pid [] = childrenOf st st.taxonNodes pid := by
      rw [hch pid, hnil, List.nil_append]
    constructor
    · rw [hpd]
      exact List.Nodup.sublist
        (List.Sublist.map _ (List.filter_sublist st.taxonNodes)) (taxIds_nodup hII)
    · intro c
      rw [hpd]
      unfold childrenOf
      constructor
      · intro hc
        obtain ⟨r, hrf, hrt⟩ := List.mem_map.mp hc
        obtain ⟨hrm, hcond⟩ := List.mem_filter.mp hrf
        rw [Bool.and_eq_true_iff] at hcond
        refine ⟨r, hrm, hrt, ?_, ?_⟩
        · rw [← hrt]
          simpa using hcond.1
        · have := hcond.2
          rwa [beq_iff_eq] at this
      · rintro ⟨r, hrm, hrt, hrp, hrid⟩
        refine List.mem_map.mpr ⟨r, List.mem_filter.mpr ⟨hrm, ?_⟩, hrt⟩
        rw [Bool.and_eq_true_iff]
        refine ⟨by simpa using (hrt ▸ hrp), by rwa [beq_iff_eq]⟩



/-- One-step unfolding of `elh` at positive fuel, in `bind` form. -/
theorem elh_succ_eq (st : Store) (ch : List (List Int)) (f : Nat) (t lvl : Int)
    (s : EState) :
    elh st ch (f + 1) t lvl s =
      (nodeIdOpt st t).bind (fun id =>
        (((ch.getD id []).foldlM (fun s' c => elh st ch f c (lvl + 1) s')
            ({ tour := s.tour ++ [(id, lvl)]
               H := if s.H.getD id 0 = 0 then s.H.set id s.tour.length else s.H
               vis := s.vis ++ [(t, s.tour.length)] } : EState)).bind (fun s2 =>
          (st.taxonNodes.get? id).bind (fun r =>
            (nodeIdOpt st r.parentTaxId).map (fun pid =>
              { s2 with tour := s2.tour ++ [(pid, lvl - 1)] }))))) := by
  rw [elh]
  cases nodeIdOpt st t with
  | none => rfl
  | some id =>
    simp only [Option.some_bind]
    cases (ch.getD id []).foldlM (fun s' c => elh st ch f c (lvl + 1) s')
        ({ tour := s.tour ++ [(id, lvl)]
           H := if s.H.getD id 0 = 0 then s.H.set id s.tour.length else s.H
           vis := s.vis ++ [(t, s.tour.length)] } : EState) with
    | none => rfl
    | some s2 =>
      simp only [Option.some_bind]
      cases st.taxonNodes.get? id with
      | none => rfl
      | some r =>
        simp only [Option.some_bind]
        cases nodeIdOpt st r.parentTaxId with
        | none => rfl
        | some pid => rfl

/-- Visiting a fresh taxon preserves the `H`/visit correspondence. -/
theorem HInv_visit {st : Store} {s : EState} {t : Int} {it : Nat} {rt : TaxonNode}
    (hinv : HInv st s) (hid : nodeIdOpt st t = some it)
    (hrt : st.taxonNodes.get? it = some rt) (hrtid : rt.taxId = t)
    (hII : idsInvert st) (hfr : ∀ q, (t, q) ∉ s.vis) (lvl : Int) :
    HInv st ({ tour := s.tour ++ [(it, lvl)]
               H := if s.H.getD it 0 = 0 then s.H.set it s.tour.length else s.H
               vis := s.vis ++ [(t, s.tour.length)] } : EState) := by
  obtain ⟨hlen, hcor⟩ := hinv
  have hit : it < st.taxonNodes.length := by
    rw [List.get?_eq_getElem?] at hrt
    exact (List.getElem?_eq_some.mp hrt).1
  have h0 : s.H.getD it 0 = 0 := by
    have h1 := hcor (it, rt) (mem_enum_get?.mpr hrt)
    rw [h1, hrtid, visPos_not_mem hfr]
  have hHn : (if s.H.getD it 0 = 0 then s.H.set it s.tour.length else s.H) =
      s.H.set it s.tour.length := if_pos h0
  rw [hHn]
  constructor
  · rw [List.length_set]
    exact hlen
  · intro p hp
    rcases p with ⟨j, rj⟩
    by_cases hj : j = it
    · subst hj
      have hrj : rj = rt := by
        have h2 := mem_enum_get?.mp hp
        exact Option.some_inj.mp (h2.symm.trans hrt)
      subst hrj
      have hset : (s.H.set j s.tour.length).getD j 0 = s.tour.length := by
        rw [List.getD_eq_getElem?_getD, List.getElem?_set_self (by rw [hlen]; exact hit)]
        rfl
      rw [hset, hrtid, visPos_append_new hfr]
    · have hset : (s.H.set it s.tour.length).getD j 0 = s.H.getD j 0 := by
        rw [List.getD_eq_getElem?_getD, List.getElem?_set_ne (fun hc => hj hc.symm),
          ← List.getD_eq_getElem?_getD]
      have hjt : rj.taxId ≠ t := by
        intro hc
        have h1 := idsInvert_get? hII (mem_enum_get?.mp hp)
        rw [hc] at h1
        exact hj (Option.some_inj.mp (h1.symm.trans hid))
      rw [hset, visPos_append_other hjt]
      exact hcor (j, rj) hp



theorem mem_of_head? {α : Type} {l : List α} {x : α} (h : l.head? = some x) : x ∈ l := by
  cases l with
  | nil => simp at h
  | cons a t =>
    simp only [List.head?_cons, Option.some_inj] at h
    rw [← h]
    exact List.mem_cons_self a t

/-- Facts about one entry of a children list: its own record resolves, its
parent is the taxon whose list it sits in, it is not the root, and its root
distance is one more than its parent's. -/
theorem child_facts {st : Store} {ch : List (List Int)}
    (hII : idsInvert st) (hPR : parentsResolve st) {ir : Nat}
    (hRT : rootAt st ir) (hCS : ChSpec st ch)
    {it : Nat} {rt : TaxonNode}
    (hrt : st.taxonNodes.get? it = some rt)
    {c : Int} (hc : c ∈ ch.getD it []) :
    ∃ jc rc, nodeIdOpt st c = some jc ∧ st.taxonNodes.get? jc = some rc ∧
      rc.taxId = c ∧ rc.parentTaxId = rt.taxId ∧ c ≠ 1 ∧
      parentOfTax st c = some rt.taxId ∧
      ∀ gt dt, rootDist st gt rt.taxId = some dt →
        rootDist st (gt + 1) c = some (dt + 1) := by
  obtain ⟨r, hrm, hrid, hrpar, hrpid⟩ := ((hCS.2 it).2 c).mp hc
  obtain ⟨jc, hjc⟩ := List.mem_iff_get?.mp hrm
  have hnc : nodeIdOpt st c = some jc := by
    have h1 := idsInvert_get? hII hjc
    rwa [hrid] at h1
  have hpar : r.parentTaxId = rt.taxId := by
    have h1 := hPR r hrm
    rw [hrpid] at h1
    simp only [Option.some_bind, hrt, Option.map_some', Option.some_inj] at h1
    exact h1.symm
  have hc1 : c ≠ 1 := by
    intro hc1
    obtain ⟨h1, h2⟩ := hRT
    rw [hc1] at hnc
    have hjir : jc = ir := Option.some_inj.mp (hnc.symm.trans h1)
    rw [hjir] at hjc
    rw [hjc] at h2
    simp only [Option.map_some', Option.some_inj, Prod.mk.injEq] at h2
    exact hrpar (by rw [h2.2, hc1])
  have hpoc : parentOfTax st c = some rt.taxId := by
    unfold parentOfTax
    rw [hnc]
    simp only [Option.some_bind, hjc, Option.map_some', Option.some_inj]
    exact hpar
  refine ⟨jc, r, hnc, hjc, hrid, hpar, hc1, hpoc, ?_⟩
  intro gt dt hgd
  rw [rootDist, if_neg hc1, hnc]
  simp only [Option.some_bind, hjc, Option.bind_eq_bind]
  rw [hpar, hgd]
  rfl

theorem elh_fold {st : Store} {ch : List (List Int)}
    (hII : idsInvert st) (hPR : parentsResolve st) {ir : Nat}
    (hRT : rootAt st ir) (hCS : ChSpec st ch) {f : Nat}
    (ihm : ∀ t lvl dt gt s s',
      elh st ch f t lvl s = some s' →
      rootDist st gt t = some dt → lvl = (dt : Int) →
      (∃ it rt, nodeIdOpt st t = some it ∧ st.taxonNodes.get? it = some rt ∧
        rt.taxId = t) →
      (∀ x k g d, ancT st k x = some t → rootDist st g x = some d →
        d = dt + k → ∀ q, (x, q) ∉ s.vis) →
      HInv st s → ElhOut st ch t lvl dt s s' ∧ HInv st s')
    {t : Int} {it : Nat} {rt : TaxonNode} {dt gt : Nat} {lvl : Int}
    (hid : nodeIdOpt st t = some it) (hrt : st.taxonNodes.get? it = some rt)
    (hrtid : rt.taxId = t) (hdt : rootDist st gt t = some dt)
    (hlvl : lvl = (dt : Int))
    (s s1 : EState)
    (hs1vis : s1.vis = s.vis ++ [(t, s.tour.length)])
    (hfresh : ∀ x k g d, ancT st k x = some t → rootDist st g x = some d →
      d = dt + k → ∀ q, (x, q) ∉ s.vis) :
    ∀ todo done acc s2,
      ch.getD it [] = done ++ todo →
      todo.foldlM (fun s' c => elh st ch f c (lvl + 1) s') acc = some s2 →
      FoldSt st ch s1 it lvl dt done acc → HInv st acc →
      FoldSt st ch s1 it lvl dt (done ++ todo) s2 ∧ HInv st s2 := by
  intro todo
  induction todo with
  | nil =>
    intro done acc s2 hsplit hf hFS hHI
    simp only [List.foldlM_nil] at hf
    cases Option.some_inj.mp hf
    rw [List.append_nil]
    exact ⟨hFS, hHI⟩
  | cons c todo' ihc =>
    intro done acc s2 hsplit hf hFS hHI
    rw [List.foldlM_cons] at hf
    cases hc : elh st ch f c (lvl + 1) acc with
    | none => rw [hc] at hf; exact absurd hf (by simp)
    | some accc =>
      rw [hc] at hf
      have hcmem : c ∈ ch.getD it [] := by
        rw [hsplit]
        exact List.mem_append_right _ (List.mem_cons_self _ _)
      obtain ⟨jc, rc, hjc, hrc, hrcid, hrcpar, hcne1, hpoc, hrdc⟩ :=
        child_facts hII hPR hRT hCS hrt hcmem
      have hrdc' : rootDist st (gt + 1) c = some (dt + 1) :=
        hrdc gt dt (by rw [hrtid]; exact hdt)
      obtain ⟨dTour, dVis, hat, hav, hlen2, hbody2, hmem2, hnd2, hcl2, hdone2⟩ := hFS
      have hndcs : (ch.getD it []).Nodup := (hCS.2 it).1
      have hcdone : c ∉ done := by
        rw [hsplit] at hndcs
        exact fun hcd =>
          (List.nodup_append.mp hndcs).2.2 hcd (List.mem_cons_self c todo')
      have hacclen : acc.tour.length = s1.tour.length + dTour.length := by
        rw [hat, List.length_append]
      have hfreshc : ∀ x k g d, ancT st k x = some c → rootDist st g x = some d →
          d = (dt + 1) + k → ∀ q, (x, q) ∉ acc.vis := by
        intro x k g d hanc hrd hdk q hq
        rw [hav, hs1vis] at hq
        rcases List.mem_append.mp hq with hq | hq
        · rcases List.mem_append.mp hq with hq | hq
          · have hanc' : ancT st (k + 1) x = some t :=
              ancT_snoc hanc (by rw [hpoc, hrtid])
            exact hfresh x (k + 1) g d hanc' hrd (by omega) q hq
          · have hx : x = t := by
              have h1 := List.mem_singleton.mp hq
              exact congrArg Prod.fst h1
            rw [hx] at hrd
            have : d = dt := rootDist_det hrd hdt
            omega
        · obtain ⟨k', c', g', iv', rv', hcd', hanc', hrd', -, -, -, -, -⟩ :=
            hmem2 (x, q) hq
          have hkk : dt + 1 + k' = d := rootDist_det hrd' hrd
          have hk : k' = k := by omega
          subst hk
          have hcc : c' = c := Option.some_inj.mp (hanc'.symm.trans hanc)
          exact hcdone (hcc ▸ hcd')
      obtain ⟨outc, hHIc⟩ := ihm c (lvl + 1) (dt + 1) (gt + 1) acc accc hc hrdc'
        (by rw [hlvl]; push_cast; ring) ⟨jc, rc, hjc, hrc, hrcid⟩ hfreshc hHI
      obtain ⟨delta, vdelta, itc, rtc, pidc, hidc, hrtc, hrtidc, htorc, hvisc, hlenc,
        hvheadc, hdheadc, hpidc, hlastc, hbodyc, hmemc, hnodupc, hclosedc⟩ := outc
      have hitc : itc = jc := Option.some_inj.mp (hidc.symm.trans hjc)
      subst hitc
      have hrtcrc : rtc = rc := Option.some_inj.mp (hrtc.symm.trans hrc)
      subst hrtcrc
      have hpidit : it = pidc := by
        rw [hrcpar] at hpidc
        have h2 : nodeIdOpt st rt.taxId = some it := by
          rw [hrtid]; exact hid
        exact (Option.some_inj.mp (hpidc.symm.trans h2)).symm
      rw [← hpidit] at hlastc
      have hFS' : FoldSt st ch s1 it lvl dt (done ++ [c]) accc := by
        refine ⟨dTour ++ delta, dVis ++ vdelta, ?_, ?_, ?_, ?_, ?_, ?_, ?_, ?_⟩
        · rw [htorc, hat, List.append_assoc]
        · rw [hvisc, hav, List.append_assoc]
        · rw [List.length_append, List.length_append, hlen2, hlenc]
          ring
        · intro e he
          rcases List.mem_append.mp he with he | he
          · exact hbody2 e he
          · rcases mem_dropLast_or_last he with he' | he'
            · obtain ⟨h1, -⟩ := hbodyc e he'
              exact ⟨by omega, fun h3 => absurd h3 (by omega)⟩
            · rcases e with ⟨e1, e2⟩
              have he2 : (e1, e2) = (it, lvl + 1 - 1) :=
                Option.some_inj.mp (he'.symm.trans hlastc)
              obtain ⟨hee1, hee2⟩ := Prod.mk.injEq .. |>.mp he2
              subst hee1
              constructor
              · omega
              · intro h3
                rfl
        · intro v hv
          rcases List.mem_append.mp hv with hv | hv
          · obtain ⟨k, c', g, iv, rv, hcd, hanc, hrd, hiv, hrv, hrvid, hge, hget⟩ :=
              hmem2 v hv
            exact ⟨k, c', g, iv, rv, List.mem_append_left _ hcd, hanc, hrd, hiv, hrv,
              hrvid, hge, by rw [htorc]; exact get?_append_left hget delta⟩
          · obtain ⟨k, g, iv, rv, hanc, hrd, hiv, hrv, hrvid, hge, hget⟩ := hmemc v hv
            refine ⟨k, c, g, iv, rv,
              List.mem_append_right _ (List.mem_singleton.mpr rfl), hanc, ?_, hiv, hrv,
              hrvid, by omega, ?_⟩
            · have : dt + 1 + k = (dt + 1) + k := by omega
              rw [this]
              exact hrd
            · have : lvl + 1 + (k : Int) = (lvl + 1) + (k : Int) := by ring
              rw [this]
              exact hget
        · rw [List.map_append, List.nodup_append]
          refine ⟨hnd2, hnodupc, ?_⟩
          intro x hx1 hx2
          obtain ⟨v1, hv1, he1⟩ := List.mem_map.mp hx1
          obtain ⟨v2, hv2, he2⟩ := List.mem_map.mp hx2
          obtain ⟨k1, c1, g1, iv1, rv1, hc1d, hanc1, hrd1, -, -, -, -, -⟩ := hmem2 v1 hv1
          obtain ⟨k2, g2, iv2, rv2, hanc2, hrd2, -, -, -, -, -⟩ := hmemc v2 hv2
          have hv12 : v1.1 = v2.1 := by rw [he1, he2]
          rw [hv12] at hanc1 hrd1
          have hk : k1 = k2 := by
            have h3 := rootDist_det hrd1 hrd2
            omega
          subst hk
          have hcc : c1 = c := Option.some_inj.mp (hanc1.symm.trans hanc2)
          exact hcdone (hcc ▸ hc1d)
        · intro v hv iv hiv c2 hc2
          rcases List.mem_append.mp hv with hv | hv
          · obtain ⟨q, hq⟩ := hcl2 v hv iv hiv c2 hc2
            exact ⟨q, List.mem_append_left _ hq⟩
          · obtain ⟨q, hq⟩ := hclosedc v hv iv hiv c2 hc2
            exact ⟨q, List.mem_append_right _ hq⟩
        · intro c2 hc2
          rcases List.mem_append.mp hc2 with hc2 | hc2
          · obtain ⟨q, hq⟩ := hdone2 c2 hc2
            exact ⟨q, List.mem_append_left _ hq⟩
          · have hc2c : c2 = c := List.mem_singleton.mp hc2
            subst hc2c
            exact ⟨acc.tour.length, List.mem_append_right _ (mem_of_head? hvheadc)⟩
      have hsplit' : ch.getD it [] = (done ++ [c]) ++ todo' := by
        rw [hsplit, List.append_assoc]
        rfl
      have hres := ihc (done ++ [c]) accc s2 hsplit' hf hFS' hHIc
      rw [List.append_assoc] at hres
      exact hres



/-- The master structural lemma of the Euler traversal: a successful call
produces a balanced, level-consistent, duplicate-free subtree segment, and
preserves the `H`/visit correspondence. -/
theorem elh_master {st : Store} {ch : List (List Int)}
    (hII : idsInvert st) (hPR : parentsResolve st) {ir : Nat}
    (hRT : rootAt st ir) (hCS : ChSpec st ch) :
    ∀ f : Nat, ∀ t lvl : Int, ∀ dt gt : Nat, ∀ s s' : EState,
      elh st ch f t lvl s = some s' →
      rootDist st gt t = some dt → lvl = (dt : Int) →
      (∃ it rt, nodeIdOpt st t = some it ∧ st.taxonNodes.get? it = some rt ∧
        rt.taxId = t) →
      (∀ x k g d, ancT st k x = some t → rootDist st g x = some d →
        d = dt + k → ∀ q, (x, q) ∉ s.vis) →
      HInv st s →
      ElhOut st ch t lvl dt s s' ∧ HInv st s' := by
  intro f
  induction f with
  | zero =>
    intro t lvl dt gt s s' h
    rw [elh] at h
    exact absurd h (by simp)
  | succ f ih =>
    intro t lvl dt gt s s' h hdt hlvl hex hfresh hinv
    obtain ⟨it, rt, hid, hrt, hrtid⟩ := hex
    rw [elh_succ_eq, hid] at h
    simp only [Option.some_bind] at h
    cases hfold : (ch.getD it []).foldlM (fun s' c => elh st ch f c (lvl + 1) s')
        ({ tour := s.tour ++ [(it, lvl)]
           H := if s.H.getD it 0 = 0 then s.H.set it s.tour.length else s.H
           vis := s.vis ++ [(t, s.tour.length)] } : EState) with
    | none => rw [hfold] at h; exact absurd h (by simp)
    | some s2 =>
      rw [hfold] at h
      simp only [Option.some_bind] at h
      rw [hrt] at h
      simp only [Option.some_bind] at h
      cases hpid : nodeIdOpt st rt.parentTaxId with
      | none => rw [hpid] at h; exact absurd h (by simp)
      | some pid =>
        rw [hpid] at h
        simp only [Option.map_some'] at h
        have hs'eq : s' = { s2 with tour := s2.tour ++ [(pid, lvl - 1)] } :=
          (Option.some_inj.mp h).symm
        subst hs'eq
        have htfresh : ∀ q, (t, q) ∉ s.vis :=
          fun q => hfresh t 0 gt dt rfl hdt (by omega) q
        have hinv1 := HInv_visit hinv hid hrt hrtid hII htfresh lvl
        have hFS0 : FoldSt st ch
            ({ tour := s.tour ++ [(it, lvl)]
               H := if s.H.getD it 0 = 0 then s.H.set it s.tour.length else s.H
               vis := s.vis ++ [(t, s.tour.length)] } : EState) it lvl dt []
            ({ tour := s.tour ++ [(it, lvl)]
               H := if s.H.getD it 0 = 0 then s.H.set it s.tour.length else s.H
               vis := s.vis ++ [(t, s.tour.length)] } : EState) :=
          ⟨[], [], by simp, by simp, rfl, by simp, by simp, by simp, by simp, by simp⟩
        obtain ⟨hFS, hinv2⟩ := elh_fold hII hPR hRT hCS ih hid hrt hrtid hdt hlvl s
          ({ tour := s.tour ++ [(it, lvl)]
             H := if s.H.getD it 0 = 0 then s.H.set it s.tour.length else s.H
             vis := s.vis ++ [(t, s.tour.length)] } : EState)
          rfl hfresh (ch.getD it []) [] _ s2 rfl hfold hFS0 hinv1
        obtain ⟨dTour, dVis, hat, hav, hlen2, hbody2, hmem2, hnd2, hcl2, hdone2⟩ := hFS
        have htour' : ({ s2 with tour := s2.tour ++ [(pid, lvl - 1)] } : EState).tour =
            s.tour ++ (((it, lvl) :: dTour) ++ [(pid, lvl - 1)]) := by
          show s2.tour ++ [(pid, lvl - 1)] = _
          rw [hat]
          simp [List.append_assoc]
        have hvis' : ({ s2 with tour := s2.tour ++ [(pid, lvl - 1)] } : EState).vis =
            s.vis ++ ((t, s.tour.length) :: dVis) := by
          show s2.vis = _
          rw [hav]
          simp
        have hs1len : (s.tour ++ [(it, lvl)]).length = s.tour.length + 1 := by
          rw [List.length_append]
          rfl
        refine ⟨⟨((it, lvl) :: dTour) ++ [(pid, lvl - 1)], (t, s.tour.length) :: dVis,
          it, rt, pid, hid, hrt, hrtid, htour', hvis', ?_, rfl, rfl, hpid,
          List.getLast?_concat _, ?_, ?_, ?_, ?_⟩, hinv2⟩
        · simp only [List.length_append, List.length_cons, List.length_nil, hlen2]
          omega
        · intro e he
          rw [List.dropLast_concat] at he
          rcases List.mem_cons.mp he with he | he
          · subst he
            exact ⟨le_refl _, fun _ => rfl⟩
          · exact hbody2 e he
        · intro v hv
          rcases List.mem_cons.mp hv with hv | hv
          · subst hv
            refine ⟨0, gt, it, rt, rfl, by rw [Nat.add_zero]; exact hdt, hid, hrt,
              hrtid, le_refl _, ?_⟩
            rw [htour']
            have hg := get?_append_right s.tour (((it, lvl) :: dTour) ++ [(pid, lvl - 1)]) 0
            rw [Nat.add_zero] at hg
            rw [hg]
            simp
          · obtain ⟨k, c, g, iv, rv, hcd, hanc, hrd, hiv, hrv, hrvid, hge, hget⟩ :=
              hmem2 v hv
            obtain ⟨jc, rc, hjc, hrc, hrcid, hrcpar, hcne1, hpoc, hrdc⟩ :=
              child_facts hII hPR hRT hCS hrt hcd
            refine ⟨k + 1, g, iv, rv, ancT_snoc hanc (by rw [hpoc, hrtid]), ?_, hiv,
              hrv, hrvid, ?_, ?_⟩
            · have he : dt + 1 + k = dt + (k + 1) := by omega
              rw [← he]
              exact hrd
            · rw [hs1len] at hge
              omega
            · show (s2.tour ++ [(pid, lvl - 1)]).get? v.2 = _
              have hc : lvl + ((k + 1 : Nat) : Int) = lvl + 1 + (k : Int) := by
                push_cast
                ring
              rw [hc]
              exact get?_append_left hget _
        · rw [List.map_cons]
          rw [List.nodup_cons]
          constructor
          · intro hmem3
            obtain ⟨v1, hv1, he1⟩ := List.mem_map.mp hmem3
            obtain ⟨k, c, g, iv, rv, hcd, hanc, hrd, -, -, -, -, -⟩ := hmem2 v1 hv1
            rw [he1] at hrd
            have := rootDist_det hrd hdt
            omega
          · exact hnd2
        · intro v hv iv hiv c hc2
          rcases List.mem_cons.mp hv with hv | hv
          · subst hv
            have hivit : iv = it := Option.some_inj.mp (hiv.symm.trans hid)
            rw [hivit] at hc2
            obtain ⟨q, hq⟩ := hdone2 c hc2
            exact ⟨q, List.mem_cons_of_mem _ hq⟩
          · obtain ⟨q, hq⟩ := hcl2 v hv iv hiv c hc2
            exact ⟨q, List.mem_cons_of_mem _ hq⟩



/-- Inversion of one `rootDist` step at a non-root taxon. -/
theorem rootDist_succ_inv {st : Store} {g : Nat} {t : Int} {d : Nat}
    (h : rootDist st (g + 1) t = some (d + 1)) :
    ∃ j r, nodeIdOpt st t = some j ∧ st.taxonNodes.get? j = some r ∧
      rootDist st g r.parentTaxId = some d := by
  rw [rootDist] at h
  by_cases h1 : t = 1
  · rw [if_pos h1] at h
    exact absurd (Option.some_inj.mp h) (by omega)
  · rw [if_neg h1] at h
    cases hj : nodeIdOpt st t with
    | none => rw [hj] at h; exact absurd h (by simp)
    | some j =>
      rw [hj] at h
      simp only [Option.some_bind, Option.bind_eq_bind] at h
      cases hr : st.taxonNodes.get? j with
      | none => rw [hr] at h; exact absurd h (by simp)
      | some r =>
        rw [hr] at h
        simp only [Option.some_bind] at h
        cases hd : rootDist st g r.parentTaxId with
        | none => rw [hd] at h; exact absurd h (by simp)
        | some d2 =>
          rw [hd] at h
          simp only [Option.map_some', Option.some_inj] at h
          have : d2 = d := by omega
          subst this
          exact ⟨j, r, rfl, hr, hd⟩

/-- Under reachability, every record is visited by the traversal. -/
theorem elh_all_visited {st : Store} {ch : List (List Int)}
    (hII : idsInvert st) (hPR : parentsResolve st) {ir : Nat}
    (hRT : rootAt st ir) (hCS : ChSpec st ch) (hCR : chainsReachRoot st)
    {s0 s : EState} (out : ElhOut st ch 1 0 0 s0 s) (hs0 : s0.vis = []) :
    ∀ j rj, st.taxonNodes.get? j = some rj → ∃ p, (rj.taxId, p) ∈ s.vis := by
  obtain ⟨delta, vdelta, it, rt, pid, hid, hrt, hrtid, htour, hvis, hlen, hvhead,
    hdhead, hpid, hlast, hbody, hmem, hnodup, hclosed⟩ := out
  have hsvis : s.vis = vdelta := by rw [hvis, hs0]; rfl
  have main : ∀ d : Nat, ∀ j rj, st.taxonNodes.get? j = some rj →
      rootDist st (st.taxonNodes.length + 1) rj.taxId = some d →
      ∃ p, (rj.taxId, p) ∈ vdelta := by
    intro d
    induction d using Nat.strong_induction_on with
    | _ d ihd =>
      intro j rj hj hrd
      cases d with
      | zero =>
        have h1 : rj.taxId = 1 := rootDist_zero hrd
        rw [h1]
        exact ⟨s0.tour.length, mem_of_head? hvhead⟩
      | succ d2 =>
        have hrd0 := hrd
        obtain ⟨j2, r2, hj2, hr2, hpd⟩ := rootDist_succ_inv hrd
        have hidj : nodeIdOpt st rj.taxId = some j := idsInvert_get? hII hj
        have hj2j : j2 = j := Option.some_inj.mp (hj2.symm.trans hidj)
        subst hj2j
        have hr2rj : rj = r2 := Option.some_inj.mp (hj.symm.trans hr2)
        subst hr2rj
        have hselfne : rj.parentTaxId ≠ rj.taxId := by
          intro hcself
          rw [hcself] at hpd
          have h2 : rootDist st (st.taxonNodes.length + 1) rj.taxId = some d2 :=
            rootDist_mono (by omega) hpd
          have h3 := rootDist_det hrd0 h2
          omega
        have hp := hPR rj (List.get?_mem hj)
        cases hpi : nodeIdOpt st rj.parentTaxId with
        | none => rw [hpi] at hp; exact absurd hp (by simp)
        | some ip =>
          rw [hpi] at hp
          simp only [Option.some_bind] at hp
          cases hgp : st.taxonNodes.get? ip with
          | none => rw [hgp] at hp; exact absurd hp (by simp)
          | some rp =>
            rw [hgp] at hp
            simp only [Option.map_some', Option.some_inj] at hp
            have hrdp : rootDist st (st.taxonNodes.length + 1) rp.taxId =
                some d2 := by
              rw [hp]
              exact rootDist_mono (by omega) hpd
            obtain ⟨p, hpmem⟩ := ihd d2 (by omega) ip rp hgp hrdp
            have hrjch : rj.taxId ∈ ch.getD ip [] := by
              apply ((hCS.2 ip).2 rj.taxId).mpr
              exact ⟨rj, List.get?_mem hj, rfl, hselfne, hpi⟩
            obtain ⟨q, hq⟩ := hclosed (rp.taxId, p) hpmem ip
              (by rw [hp]; exact hpi) rj.taxId hrjch
            exact ⟨q, hq⟩
  intro j rj hj
  obtain ⟨d, hd⟩ := Option.isSome_iff_exists.mp (hCR rj (List.get?_mem hj))
  rw [hsvis]
  exact main d j rj hj hd

theorem resizeTo_self {α : Type} {l : List α} {n : Nat} (h : l.length = n) (d : α) :
    resizeTo l n d = l := by
  unfold resizeTo
  rw [← h, List.take_length, Nat.sub_self]
  simp

/-- Consolidated facts about a successfully constructed engine over a
well-formed store: the resize is the identity, the tour is balanced, starts
and ends at the root, its interior levels are nonnegative with level 0 only
at root visits, and `H` holds each record's first-visit position, whose
entry carries the record's index at its root distance. -/
theorem euler_facts {nodes : List TaxonNode} {merged : List (Int × Int)}
    {names : List String} {T : Taxonomy} {ir : Nat}
    (hcons : NcbiTaxonomy nodes merged names = some T)
    (hII : idsInvert T.store) (hPR : parentsResolve T.store)
    (hCR : chainsReachRoot T.store) (hRT : rootAt T.store ir) :
    ∃ tour : List (Nat × Int),
      T.E = tour.map Prod.fst ∧ T.L = tour.map Prod.snd ∧
      tour.length = 2 * T.store.taxonNodes.length ∧
      tour.head? = some (ir, 0) ∧ tour.getLast? = some (ir, -1) ∧
      (∀ e ∈ tour.dropLast, 0 ≤ e.2 ∧ (e.2 = 0 → e.1 = ir)) ∧
      T.H.getD ir 0 = 0 ∧
      (∀ j rj, T.store.taxonNodes.get? j = some rj → ∃ p d,
        T.H.getD j 0 = p ∧
        rootDist T.store (T.store.taxonNodes.length + 1) rj.taxId = some d ∧
        tour.get? p = some (j, (d : Int))) := by
  obtain ⟨st0, st1, ch, s, h0, h1, h2, h3, h4, hE, hL, hH⟩ := NcbiTaxonomy_spec hcons
  have hCS := buildChildren_chSpec hII hPR h3
  have hnid1 := hRT.1
  have hgr := hRT.2
  cases hgrr : T.store.taxonNodes.get? ir with
  | none => rw [hgrr] at hgr; exact absurd hgr (by simp)
  | some rr =>
    rw [hgrr] at hgr
    simp only [Option.map_some', Option.some_inj, Prod.mk.injEq] at hgr
    have hinv0 : HInv T.store
        ⟨[], List.replicate T.store.taxonNodes.length 0, []⟩ := by
      constructor
      · exact List.length_replicate _ _
      · intro p hp
        have hrep : (List.replicate T.store.taxonNodes.length (0 : Nat)).getD p.1 0 = 0 := by
          by_cases hj : p.1 < T.store.taxonNodes.length <;>
            simp [List.getD_eq_getElem?_getD, List.getElem?_replicate, hj]
        rw [hrep]
        rfl
    obtain ⟨out, hinvS⟩ := elh_master hII hPR hRT hCS
      (T.store.taxonNodes.length + 1) 1 0 0 1
      ⟨[], List.replicate T.store.taxonNodes.length 0, []⟩ s h4 rootDist_one
      (by simp)
      ⟨ir, rr, hnid1, hgrr, hgr.1⟩
      (fun x k g d _ _ _ q hq => absurd hq (List.not_mem_nil _))
      hinv0
    have hvisited := elh_all_visited hII hPR hRT hCS hCR out rfl
    obtain ⟨delta, vdelta, it, rt, pid, hid, hrt, hrtid, htour, hvis, hlen, hvhead,
      hdhead, hpid, hlast, hbody, hmem, hnodup, hclosed⟩ := out
    have hitir : ir = it := (Option.some_inj.mp (hid.symm.trans hnid1)).symm
    subst hitir
    have hrtrr : rr = rt := (Option.some_inj.mp (hrt.symm.trans hgrr)).symm
    subst hrtrr
    have hpidir : ir = pid := by
      rw [hgr.2] at hpid
      exact (Option.some_inj.mp (hpid.symm.trans hnid1)).symm
    subst hpidir
    have hstour : s.tour = delta := by rw [htour]; rfl
    have hsvis : s.vis = vdelta := by rw [hvis]; rfl
    -- the visit list covers exactly the records
    have hsub1 : vdelta.map Prod.fst ⊆ T.store.taxonNodes.map (fun r => r.taxId) := by
      intro x hx
      obtain ⟨v, hv, hvx⟩ := List.mem_map.mp hx
      obtain ⟨k, g, iv, rv, -, -, -, hrv, hrvid, -, -⟩ := hmem v hv
      exact List.mem_map.mpr ⟨rv, List.get?_mem hrv, by rw [hrvid, hvx]⟩
    have hsub2 : T.store.taxonNodes.map (fun r => r.taxId) ⊆ vdelta.map Prod.fst := by
      intro x hx
      obtain ⟨r, hr, hrx⟩ := List.mem_map.mp hx
      obtain ⟨j, hj⟩ := List.mem_iff_get?.mp hr
      obtain ⟨p, hp⟩ := hvisited j r hj
      rw [hsvis] at hp
      exact List.mem_map.mpr ⟨(r.taxId, p), hp, hrx⟩
    have hvlen : vdelta.length = T.store.taxonNodes.length := by
      have hle1 := (List.subperm_of_subset hnodup hsub1).length_le
      have hle2 := (List.subperm_of_subset (taxIds_nodup hII) hsub2).length_le
      rw [List.length_map] at hle1 hle2
      rw [List.length_map] at hle1 hle2
      omega
    have hdlen : delta.length = 2 * T.store.taxonNodes.length := by
      rw [hlen, hvlen]
    refine ⟨delta, ?_, ?_, hdlen, ?_, ?_, ?_, ?_, ?_⟩
    · rw [hE, hstour, resizeTo_self (by rw [List.length_map, hdlen])]
    · rw [hL, hstour, resizeTo_self (by rw [List.length_map, hdlen])]
    · exact hdhead
    · have : (0 : Int) - 1 = -1 := by norm_num
      rw [← this]
      exact hlast
    · exact hbody
    · obtain ⟨hHlen, hHcor⟩ := hinvS
      have h5 := hHcor (ir, rr) (mem_enum_get?.mpr hgrr)
      rw [hH, h5, hgr.1, hsvis, visPos_mem_nodup (mem_of_head? hvhead) hnodup]
      rfl
    · intro j rj hj
      obtain ⟨p, hp⟩ := hvisited j rj hj
      rw [hsvis] at hp
      obtain ⟨hHlen, hHcor⟩ := hinvS
      have h5 := hHcor (j, rj) (mem_enum_get?.mpr hj)
      rw [hsvis] at h5
      have h6 : visPos vdelta rj.taxId = p := visPos_mem_nodup hp hnodup
      obtain ⟨k, g, iv, rv, -, hrd, hiv, hrv, hrvid, -, hget⟩ := hmem (rj.taxId, p) hp
      have hivj : iv = j := by
        have h7 : nodeIdOpt T.store rj.taxId = some j := idsInvert_get? hII hj
        exact Option.some_inj.mp (hiv.symm.trans h7)
      subst hivj
      obtain ⟨d, hd⟩ := Option.isSome_iff_exists.mp (hCR rj (List.get?_mem hj))
      have hdk : d = k := by
        have h8 := rootDist_det hd hrd
        omega
      refine ⟨p, d, by rw [hH, h5, h6], hd, ?_⟩
      rw [← hstour]
      have h9 : (0 : Int) + (k : Int) = (d : Int) := by
        rw [hdk]
        omega
      rw [← h9]
      exact hget



/-- The window argument: over `[0, pa]` with `pa` strictly inside the tour,
the depth minimum is 0 and is attained only at root visits, so the range
minimum query resolves to the root's internal index. -/
theorem rmq_window_root {T : Taxonomy} {tour : List (Nat × Int)} {ir : Nat}
    (hE : T.E = tour.map Prod.fst) (hL : T.L = tour.map Prod.snd)
    (hhead : tour.head? = some (ir, 0))
    (hbody : ∀ e ∈ tour.dropLast, 0 ≤ e.2 ∧ (e.2 = 0 → e.1 = ir))
    {pa : Nat} (hpalt : pa < tour.length - 1) :
    T.E.getD (rangeMinimumQuery T.L 0 pa) 0 = ir := by
  have h00 : tour.get? 0 = some (ir, 0) := by
    cases tour with
    | nil => simp at hhead
    | cons x xs =>
      simp only [List.head?_cons, Option.some_inj] at hhead
      rw [hhead]
      rfl
  have hLlen : T.L.length = tour.length := by rw [hL, List.length_map]
  obtain ⟨h1, h2, h3⟩ := rmq_min T.L 0 pa (by omega) (by omega)
  have hqlt : rangeMinimumQuery T.L 0 pa < tour.length - 1 := by omega
  obtain ⟨e, hte⟩ : ∃ e, tour.get? (rangeMinimumQuery T.L 0 pa) = some e := by
    rw [List.get?_eq_getElem?, List.getElem?_eq_getElem (by omega)]
    exact ⟨_, rfl⟩
  have hmm := h3 0 (le_refl 0) (by omega)
  have hL0 : T.L.getD 0 0 = 0 := by
    rw [hL, List.getD_eq_getElem?_getD, ← List.get?_eq_getElem?, List.get?_map, h00]
    rfl
  have hLgen : ∀ n, tour.get? n = some e → T.L.getD n 0 = e.2 := by
    intro n hn
    rw [hL, List.getD_eq_getElem?_getD, ← List.get?_eq_getElem?, List.get?_map, hn]
    rfl
  have hLq : T.L.getD (rangeMinimumQuery T.L 0 pa) 0 = e.2 := hLgen _ hte
  have hmem : e ∈ tour.dropLast := by
    have hdl := get?_dropLast hqlt
    exact List.get?_mem (by rw [hdl]; exact hte)
  obtain ⟨hb1, hb2⟩ := hbody e hmem
  have he2 : e.2 = 0 := by
    rw [hL0] at hmm
    rw [hLq] at hmm
    omega
  rw [hE, List.getD_eq_getElem?_getD, ← List.get?_eq_getElem?, List.get?_map, hte]
  exact hb2 he2

/-- C5, amended.  For a well-formed store (record ids invert through the id
table, parents resolve to records bearing the parent id, every chain reaches
taxon 1, and taxon 1 is a genuine self-parent record at index `ir`), the
Euler arrays have length exactly `2N`, start and end at the root's internal
index, and for every record index `j` the table `H` holds a position whose
tour entry is `j` at `j`'s root distance. -/
theorem claim_C5 {nodes : List TaxonNode} {merged : List (Int × Int)}
    {names : List String} {T : Taxonomy} {ir : Nat}
    (hcons : NcbiTaxonomy nodes merged names = some T)
    (hII : idsInvert T.store) (hPR : parentsResolve T.store)
    (hCR : chainsReachRoot T.store) (hRT : rootAt T.store ir) :
    T.E.length = 2 * T.store.taxonNodes.length ∧
    T.L.length = 2 * T.store.taxonNodes.length ∧
    T.E.head? = some ir ∧ T.E.getLast? = some ir ∧
    ∀ p ∈ T.store.taxonNodes.enum, ∃ pos d,
      T.H.getD p.1 0 = pos ∧
      rootDist T.store (T.store.taxonNodes.length + 1) p.2.taxId = some d ∧
      T.E.get? pos = some p.1 ∧ T.L.get? pos = some (d : Int) := by
  obtain ⟨tour, hE, hL, hlen, hhead, hlast, hbody, hHr, hrec⟩ :=
    euler_facts hcons hII hPR hCR hRT
  refine ⟨by rw [hE, List.length_map, hlen], by rw [hL, List.length_map, hlen],
    ?_, ?_, ?_⟩
  · rw [hE, List.head?_map, hhead]
    rfl
  · rw [hE, List.getLast?_map, hlast]
    rfl
  · intro p hp
    obtain ⟨pos, d, hpos, hd, hget⟩ := hrec p.1 p.2 (mem_enum_get?.mp hp)
    refine ⟨pos, d, hpos, hd, ?_, ?_⟩
    · rw [hE, List.get?_map, hget]
      rfl
    · rw [hL, List.get?_map, hget]
      rfl

/-- C5 witness: the theorem applied to the four-taxon tree engine. -/
theorem claim_C5_witness :
    taxTree.E.length = 2 * taxTree.store.taxonNodes.length ∧
    taxTree.L.length = 2 * taxTree.store.taxonNodes.length ∧
    taxTree.E.head? = some 0 ∧ taxTree.E.getLast? = some 0 ∧
    ∀ p ∈ taxTree.store.taxonNodes.enum, ∃ pos d,
      taxTree.H.getD p.1 0 = pos ∧
      rootDist taxTree.store (taxTree.store.taxonNodes.length + 1) p.2.taxId =
        some d ∧
      taxTree.E.get? pos = some p.1 ∧ taxTree.L.get? pos = some (d : Int) :=
  @claim_C5 recsTree [] [] taxTree 0 (by decide) (by decide) (by decide)
    (by decide) (by decide)

/-- C5 counterexample: the store `recsCyc` contains a parent two-cycle
(2 ↔ 3) disconnected from the root; construction nevertheless succeeds, the
arrays still have length `2N` (the resize pads them), but the tour does not
end at the root's internal index 2 — it ends at the padding value 0 — and
`H` leaves the never-visited index 0 pointing at position 0, which holds the
root's visit. -/
theorem claim_C5_cex :
    NcbiTaxonomy recsCyc [] [] = some taxCyc ∧
    nodeIdOpt taxCyc.store 1 = some 2 ∧
    taxCyc.E.length = 2 * taxCyc.store.taxonNodes.length ∧
    taxCyc.E.getLast? = some 0 ∧
    ¬ taxCyc.E.getLast? = some 2 ∧
    taxCyc.H.getD 0 0 = 0 ∧
    taxCyc.E.getD 0 9 = 2 := by
  refine ⟨by decide, by decide, by decide, by decide, by decide, by decide,
    by decide⟩

/-- C6, amended.  `lca(a, root) = root` holds for a known `a` over a
well-formed store provided neither `a`'s internal index nor the root's is
the 0 sentinel that `lcaHelper` treats as "unassigned"; the query walks the
depth window between the two first occurrences, whose minimum 0 is attained
only at root visits. -/
theorem claim_C6 {nodes : List TaxonNode} {merged : List (Int × Int)}
    {names : List String} {T : Taxonomy} {ir ia : Nat} {a : Int} {ra : TaxonNode}
    (hcons : NcbiTaxonomy nodes merged names = some T)
    (hII : idsInvert T.store) (hPR : parentsResolve T.store)
    (hCR : chainsReachRoot T.store) (hRT : rootAt T.store ir)
    (hir : ir ≠ 0) (hA : nodeIdOpt T.store a = some ia) (hia : ia ≠ 0)
    (hra : T.store.taxonNodes.get? ia = some ra) :
    LCA T a 1 = some 1 := by
  obtain ⟨tour, hE, hL, hlen, hhead, hlast, hbody, hHr, hrec⟩ :=
    euler_facts hcons hII hPR hCR hRT
  have hnid1 := hRT.1
  have hgr := hRT.2
  cases hgrr : T.store.taxonNodes.get? ir with
  | none => rw [hgrr] at hgr; exact absurd hgr (by simp)
  | some rr =>
    rw [hgrr] at hgr
    simp only [Option.map_some', Option.some_inj, Prod.mk.injEq] at hgr
    have hEa : nodeExistsOpt T.store a = some true := (nodeIdOpt_some hA).1
    have hE1 : nodeExistsOpt T.store 1 = some true := (nodeIdOpt_some hnid1).1
    have hres : T.store.taxonNodes.get? (lcaHelper T ia ir) = some rr := by
      by_cases hiaeq : ia = ir
      · have hlh : lcaHelper T ia ir = ia := by
          unfold lcaHelper
          rw [if_neg (by push_neg; exact ⟨hia, hir⟩), if_pos hiaeq]
        rw [hlh, hiaeq]
        exact hgrr
      · obtain ⟨pa, da, hpa, hda, hgeta⟩ := hrec ia ra hra
        have hpalt : pa < tour.length := by
          rw [List.get?_eq_getElem?] at hgeta
          exact (List.getElem?_eq_some.mp hgeta).1
        have hlast' : tour.get? (tour.length - 1) = some (ir, -1) := by
          rw [List.getLast?_eq_getElem?] at hlast
          rw [List.get?_eq_getElem?]
          exact hlast
        have hpane : pa ≠ tour.length - 1 := by
          intro hc
          rw [hc, hlast'] at hgeta
          have h5 := (Prod.mk.injEq ..).mp (Option.some_inj.mp hgeta)
          exact hiaeq h5.1.symm
        have h00 : tour.get? 0 = some (ir, 0) := by
          cases tour with
          | nil => simp at hhead
          | cons x xs =>
            simp only [List.head?_cons, Option.some_inj] at hhead
            rw [hhead]
            rfl
        have hpa0 : pa ≠ 0 := by
          intro hc
          rw [hc, h00] at hgeta
          have h5 := (Prod.mk.injEq ..).mp (Option.some_inj.mp hgeta)
          exact hiaeq h5.1.symm
        have hwin := rmq_window_root hE hL hhead hbody
          (show pa < tour.length - 1 by omega)
        have hlh : lcaHelper T ia ir = ir := by
          unfold lcaHelper
          rw [if_neg (by push_neg; exact ⟨hia, hir⟩), if_neg hiaeq]
          simp only [hpa, hHr, gt_iff_lt]
          rw [if_pos (by omega), if_pos (by omega)]
          exact hwin
        rw [hlh]
        exact hgrr
    unfold LCA
    rw [hEa]
    simp only [Option.some_bind]
    rw [if_neg (by simp)]
    rw [hE1]
    simp only [Option.some_bind]
    rw [if_neg (by simp)]
    rw [hA]
    simp only [Option.some_bind]
    rw [hnid1]
    simp only [Option.some_bind]
    rw [hres]
    simp only [Option.map_some', Option.some_inj]
    exact hgr.1

/-- C6 witness: in `taxThree` the root sits at internal index 1 and taxon 3
at internal index 2, so the helper's sentinel test does not interfere and
the LCA of 3 with the root is the root. -/
theorem claim_C6_witness : LCA taxThree 3 1 = some 1 :=
  @claim_C6 recsThree [] [] taxThree 1 2 3 ⟨3, 2, "species", ""⟩ (by decide)
    (by decide) (by decide) (by decide) (by decide) (by decide) (by decide)
    (by decide) (by decide)

/-- C6 counterexample: in `taxSwap` taxon 2 sits at internal index 0, which
`lcaHelper` conflates with the "unassigned" sentinel: the helper returns 0,
`LCA(2, 1)` yields taxon 2 itself, and the root-absorption law fails even
though the store is perfectly well formed. -/
theorem claim_C6_cex :
    LCA taxSwap 2 1 = some 2 ∧
    ¬ LCA taxSwap 2 1 = some 1 ∧
    nodeExistsOpt taxSwap.store 2 = some true ∧
    nodeIdOpt taxSwap.store 2 = some 0 ∧
    idsInvert taxSwap.store ∧ parentsResolve taxSwap.store ∧
    chainsReachRoot taxSwap.store ∧ rootAt taxSwap.store 1 := by
  refine ⟨by decide, by decide, by decide, by decide, by decide, by decide,
    by decide, by decide⟩

end NcbiTax
